import Mathlib

/-!
Shallow embedding of the contact-sheet generator scripts
(src/generate-contact-sheet.py and src/wf_generate-contact-sheet.py).

Python strings are modelled as `List Char`; the integer quantities are all
nonnegative and are modelled as `Nat`; filesystem contents are passed in
explicitly (directory listings as lists of names); fallible code returns
`Except`.  The two scripts share every function verified here verbatim; where
only the extended (wf) variant has a feature, the comment says so.
-/

abbrev FileName := List Char

/-- `os.path.join` for POSIX paths, restricted to the argument shapes the
scripts produce (a second component that is a plain relative name). -/
def joinPath (dir file : FileName) : FileName :=
  if file.head? = some '/' then file
  else if dir = [] then file
  else if dir.getLast? = some '/' then dir ++ file
  else dir ++ '/' :: file

/-- Numeric value of a decimal digit character. -/
def digitVal (c : Char) : Nat := c.toNat - '0'.toNat

/-- `math.ceil(a / b)` on nonnegative integers (exact rational ceiling;
`math.sqrt`/true division are exact at the scales the scripts reach). -/
def cdiv (a b : Nat) : Nat := (a + b - 1) / b

/-- `math.ceil(math.sqrt n)` (exact integer ceiling of the square root). -/
def ceilSqrt (n : Nat) : Nat :=
  if Nat.sqrt n * Nat.sqrt n = n then Nat.sqrt n else Nat.sqrt n + 1

/-- The `while columns < rows` adjustment loop of `create_contact_sheet`
(lines 120-125 / 123-128).  At every guard check the loop invariant
`rows = cdiv num_images columns` holds (it is established before the loop and
re-established by each body), so the loop is recursion on `columns` alone. -/
def gridLoop (num_images : Nat) (columns : Nat) : Nat :=
  if columns < cdiv num_images columns then gridLoop num_images (columns + 1)
  else columns
termination_by num_images + 1 - columns
decreasing_by
  rename_i h
  have hc : 0 < columns := by
    by_contra hc0
    have hz : columns = 0 := by omega
    subst hz
    simp [cdiv] at h
  have hmul : num_images ≤ num_images * columns := Nat.le_mul_of_pos_right _ hc
  have key : num_images + columns - 1 < (num_images + 1) * columns := by
    have hexp : (num_images + 1) * columns = num_images * columns + columns := by ring
    calc num_images + columns - 1 < num_images + columns := by omega
      _ ≤ num_images * columns + columns := Nat.add_le_add_right hmul _
      _ = (num_images + 1) * columns := hexp.symm
  have hlt : cdiv num_images columns < num_images + 1 := by
    show (num_images + columns - 1) / columns < num_images + 1
    exact (Nat.div_lt_iff_lt_mul hc).mpr key
  have hcol : columns < num_images + 1 := lt_trans h hlt
  clear h hlt key hmul
  omega

/-- `columns = math.ceil(math.sqrt(N)); rows = math.ceil(N / columns)` followed
by the adjustment loop: the grid shape `create_contact_sheet` settles on. -/
def gridShape (num_images : Nat) : Nat × Nat :=
  let columns := gridLoop num_images (ceilSqrt num_images)
  (columns, cdiv num_images columns)

/-- `resize_to_height` (lines 96-99 / 101-104): `new_width = int((w / h) * height)`.
`int` truncates toward zero, which on these nonnegative exact rationals is the
floor `w * height / h`. -/
def resize_to_height (w h height : Nat) : Nat × Nat :=
  (w * height / h, height)

/-- Modelled from the spec: the aspect-preserving width computed by rounding,
`round(original_width / original_height * H)` (round half up), which is
`⌊(w * H) / h + 1 / 2⌋ = (2 * w * H + h) / (2 * h)`. -/
def resizeWidthRoundSpec (w h height : Nat) : Nat :=
  (2 * w * height + h) / (2 * h)

/-- The constant `fixed_height = 200` of `create_contact_sheet`. -/
def fixed_height : Nat := 200

/-- The constant `padding = 10` of `create_contact_sheet`. -/
def padding : Nat := 10

/-- The constant `title_height = 60` of `create_contact_sheet`. -/
def title_height : Nat := 60

/-- `os.path.basename` for POSIX paths: the part after the last slash. -/
def basename (p : FileName) : FileName :=
  (p.reverse.takeWhile (fun c => c != '/')).reverse

/-- `extract_sh_code` (lines 103-105 / 107-109): the leftmost match of the
regular expression `sh\d+` (greedy digit run), or the empty string. -/
def extract_sh_code : FileName → FileName
  | [] => []
  | c :: rest =>
    match c, rest with
    | 's', 'h' :: d :: tail =>
      if d.isDigit then 's' :: 'h' :: d :: tail.takeWhile Char.isDigit
      else extract_sh_code rest
    | _, _ => extract_sh_code rest

/-- `re.search(r"\.v(\d{3})\.", filename)` (line 173 / 183): digits of the
leftmost occurrence of `.vDDD.`, if any. -/
def find_version : FileName → Option FileName
  | [] => none
  | c :: rest =>
    match c, rest with
    | '.', 'v' :: a :: b :: d :: '.' :: _ =>
      if a.isDigit && b.isDigit && d.isDigit then some [a, b, d]
      else find_version rest
    | _, _ => find_version rest

/-- `version_str` (line 174 / 184): `f"_v{digits}"` when the pattern matched,
else the empty string. -/
def version_str_of (filename : FileName) : FileName :=
  match find_version filename with
  | some ds => '_' :: 'v' :: ds
  | none => []

/-- `dept_str` (line 175 / 185): `f"_{dept}"` when the tag is nonempty. -/
def dept_str_of (dept : FileName) : FileName :=
  if dept = [] then [] else '_' :: dept

/-- The thumbnail label (line 176 / 186):
`f"{sh_code}{dept_str}{version_str}" if sh_code else f"{dept_str}{version_str}"`. -/
def makeLabel (filename dept : FileName) : FileName :=
  if extract_sh_code filename = [] then dept_str_of dept ++ version_str_of filename
  else extract_sh_code filename ++ dept_str_of dept ++ version_str_of filename

/-- One iteration of the per-column maxima loop (line 135-136 / 138-139):
image `i` of resized width `w` updates slot `i % columns` to the running
maximum (`iw` is the `(i, w)` pair `enumerate` yields). -/
def colStep (columns : Nat) (acc : List Nat) (iw : Nat × Nat) : List Nat :=
  acc.set (iw.1 % columns) (max (acc.getD (iw.1 % columns) 0) iw.2)

/-- The per-column maxima loop (lines 127-136 / 130-139):
`max_widths_per_column = [0] * columns` updated by `colStep` for every
enumerated image. -/
def computeColWidths (columns : Nat) (widths : List Nat) : List Nat :=
  widths.enum.foldl (colStep columns) (List.replicate columns 0)

/-- The x-offset scan (lines 138-140 / 141-143): `x_offsets = [padding]`,
extended with `x_offsets[-1] + w + padding` for every column width except the
last. -/
def computeXOffsets (colWidths : List Nat) : List Nat :=
  colWidths.dropLast.scanl (fun x w => x + w + padding) padding

/-- The drawing plan `create_contact_sheet` computes: grid shape, per-column
widths and offsets, canvas size, per-image paste positions, and the label
drawing operations (position and text) when labelling is on. -/
structure SheetLayout where
  columns : Nat
  rows : Nat
  colWidths : List Nat
  xOffsets : List Nat
  sheetWidth : Nat
  sheetHeight : Nat
  placements : List (Nat × Nat)
  labelTexts : List (Option ((Nat × Nat) × FileName))
deriving Repr, DecidableEq

/-- The body of `create_contact_sheet` (lines 120-183 / 123-199) for a
nonempty image list.  `imgSize` stands for `Image.open(img_path).size`; the
image raster contents play no role in the geometry. -/
def contactSheetCore (imgSize : FileName → Nat × Nat)
    (image_tuples : List (FileName × FileName)) (labeled : Bool) : SheetLayout :=
  let num_images := image_tuples.length
  let cr := gridShape num_images
  let columns := cr.1
  let rows := cr.2
  let widths := image_tuples.map
    (fun pd => (resize_to_height (imgSize pd.1).1 (imgSize pd.1).2 fixed_height).1)
  let max_widths_per_column := computeColWidths columns widths
  let x_offsets := computeXOffsets max_widths_per_column
  let sheet_width := max_widths_per_column.sum + (columns + 1) * padding
  let sheet_height := title_height + rows * (fixed_height + padding) + padding
  let placements := widths.enum.map (fun iw =>
    let col := iw.1 % columns
    let row := iw.1 / columns
    (x_offsets.getD col 0 + (max_widths_per_column.getD col 0 - iw.2) / 2,
     title_height + padding + row * (fixed_height + padding)))
  let labelTexts := image_tuples.enum.map (fun ipd =>
    if labeled then
      let label := makeLabel (basename ipd.2.1) ipd.2.2
      if label = [] then none
      else
        some ((x_offsets.getD (ipd.1 % columns) 0 + 5,
               title_height + padding + ipd.1 / columns * (fixed_height + padding) + 5),
              label)
    else none)
  { columns := columns, rows := rows, colWidths := max_widths_per_column,
    xOffsets := x_offsets, sheetWidth := sheet_width, sheetHeight := sheet_height,
    placements := placements, labelTexts := labelTexts }

/-- `create_contact_sheet` (lines 109-185 / 112-201): raises
`ValueError("No images to process.")` on an empty list, else computes the
drawing plan. -/
def create_contact_sheet (imgSize : FileName → Nat × Nat)
    (image_tuples : List (FileName × FileName)) (labeled : Bool) :
    Except (List Char) SheetLayout :=
  if image_tuples.length = 0 then Except.error ("No images to process.".toList)
  else Except.ok (contactSheetCore imgSize image_tuples labeled)

/-- Everything the `labeled` flag is not supposed to change: all the fields of
the layout except the label drawing operations. -/
def layoutGeometry (s : SheetLayout) :
    Nat × Nat × List Nat × List Nat × Nat × Nat × List (Nat × Nat) :=
  (s.columns, s.rows, s.colWidths, s.xOffsets, s.sheetWidth, s.sheetHeight, s.placements)

/-- Python `str.strip(".")`: remove leading and trailing dots. -/
def stripDots (cs : FileName) : FileName :=
  ((cs.dropWhile (fun c => c == '.')).reverse.dropWhile (fun c => c == '.')).reverse

/-- The anchored regular expression `^(.*?)(\.v\d{3})\.(\d{4})\.png$`
(line 39 / 47) together with the version extraction
`int(re.search(r"v(\d{3})", version_str).group(1))` (line 48 / 56).  The
suffix `.vDDD.DDDD.png` has fixed length 14, so the lazy group `(.*?)` is
forced to the first `length - 14` characters and the regex matches exactly
when the name ends in that suffix with a newline-free prefix (`.` does not
match a newline).  The base name is the prefix with surrounding dots
stripped (`match.group(1).strip(".")`); the version is the 3-digit value. -/
def parseRenderFilename (file : FileName) : Option (FileName × Nat) :=
  match file.reverse with
  | 'g' :: 'n' :: 'p' :: '.' :: e4 :: e3 :: e2 :: e1 :: '.' :: d3 :: d2 :: d1 :: 'v' :: '.' :: baseRev =>
    if (e1.isDigit && e2.isDigit && e3.isDigit && e4.isDigit &&
        d1.isDigit && d2.isDigit && d3.isDigit) &&
        baseRev.all (fun c => c != '\n') then
      some (stripDots baseRev.reverse,
        digitVal d1 * 100 + digitVal d2 * 10 + digitVal d3)
    else none
  | _ => none

/-- The guard `file.endswith(".png")` (line 43 / 51). -/
def endsWithPng (file : FileName) : Bool :=
  match file.reverse with
  | 'g' :: 'n' :: 'p' :: '.' :: _ => true
  | _ => false

/-- `render_versions[base_name][version].append(full_path)`: the inner
version-to-paths dict, modelled as an insertion-ordered association list. -/
def insertVersion (vs : List (Nat × List FileName)) (v : Nat) (p : FileName) :
    List (Nat × List FileName) :=
  match vs with
  | [] => [(v, [p])]
  | (v0, ps) :: rest =>
    if v0 = v then (v0, ps ++ [p]) :: rest else (v0, ps) :: insertVersion rest v p

/-- The nested-dict update of the scan loop (lines 50-57 / 58-65). -/
def insertRender (g : List (FileName × List (Nat × List FileName)))
    (b : FileName) (v : Nat) (p : FileName) :
    List (FileName × List (Nat × List FileName)) :=
  match g with
  | [] => [(b, [(v, [p])])]
  | (b0, vs) :: rest =>
    if b0 = b then (b0, insertVersion vs v p) :: rest
    else (b0, vs) :: insertRender rest b v p

/-- `max(versions.keys())` (line 61 / 69); the dict is never empty when this
runs, so the fold from 0 is the true maximum. -/
def maxKey (vs : List (Nat × List FileName)) : Nat :=
  vs.foldl (fun m q => max m q.1) 0

/-- Reading `versions[v]` from the association list (empty when absent). -/
def bucketOf (vs : List (Nat × List FileName)) (v : Nat) : List FileName :=
  ((vs.find? (fun q => q.1 == v)).map (fun q => q.2)).getD []

/-- Reading `render_versions[b][v]` (empty when absent). -/
def pathsOf (g : List (FileName × List (Nat × List FileName)))
    (b : FileName) (v : Nat) : List FileName :=
  ((g.find? (fun e => e.1 == b)).map (fun e => bucketOf e.2 v)).getD []

/-- One iteration of the scan loop of `get_latest_versioned_files`
(lines 42-57 / 50-65): the `.png` guard, the regex match, and the insertion
of the joined path. -/
def scanRenderFile (renders_folder : FileName)
    (g : List (FileName × List (Nat × List FileName))) (file : FileName) :
    List (FileName × List (Nat × List FileName)) :=
  if endsWithPng file then
    match parseRenderFilename file with
    | some bv => insertRender g bv.1 bv.2 (joinPath renders_folder file)
    | none => g
  else g

/-- `get_latest_versioned_files` (lines 38-64 / 46-72): scan the directory
listing into the nested version dict, then concatenate, for each base name
in first-encounter order, the file list of its maximum version. -/
def get_latest_versioned_files (renders_folder : FileName)
    (listing : List FileName) : List FileName :=
  let render_versions := listing.foldl (scanRenderFile renders_folder) []
  render_versions.flatMap (fun e => bucketOf e.2 (maxKey e.2))

/-- Python `str.replace(pat, rep)`: replace every non-overlapping occurrence,
left to right.  In the consumed branch
`(c :: rest).drop pat.length = rest.drop (pat.length - 1)` because `pat` is
nonempty. -/
def replaceAll (pat rep : FileName) : FileName → FileName
  | [] => []
  | c :: rest =>
    if pat ≠ [] ∧ pat.isPrefixOf (c :: rest) then
      rep ++ replaceAll pat rep (rest.drop (pat.length - 1))
    else c :: replaceAll pat rep rest
termination_by s => s.length
decreasing_by
  · simp only [List.length_drop, List.length_cons]
    omega
  · simp

/-- `os.path.join("CMP", "work")` on POSIX. -/
def cmpWork : FileName := "CMP/work".toList

/-- `os.path.join("LGT", "work")` on POSIX. -/
def lgtWork : FileName := "LGT/work".toList

/-- The composite department tag `"CMP"`. -/
def cmpTag : FileName := "CMP".toList

/-- The lighting department tag `"LGT"`. -/
def lgtTag : FileName := "LGT".toList

/-- The `"renders"` child directory name. -/
def rendersName : FileName := "renders".toList

/-- The filesystem as the walker sees it: which paths are directories, and
the directory listing handed to the resolver. -/
structure FS where
  isDir : FileName → Bool
  listing : FileName → List FileName

/-- The body of the `os.walk` loop of `gather_all_latest_images`
(lines 69-84 / 77-91) for one visited directory `root`: the
`root.endswith(os.path.join("CMP", "work"))` test, the CMP renders attempt
(tag and `continue` when it yields files), and otherwise the LGT fallback at
`root.replace("CMP/work", "LGT/work") + "/renders"`. -/
def shotContribution (fs : FS) (root : FileName) : List (FileName × FileName) :=
  if cmpWork.isSuffixOf root then
    let cmp_renders := joinPath root rendersName
    if fs.isDir cmp_renders ∧
        get_latest_versioned_files cmp_renders (fs.listing cmp_renders) ≠ [] then
      (get_latest_versioned_files cmp_renders (fs.listing cmp_renders)).map
        (fun img => (img, cmpTag))
    else
      let lgt_renders := joinPath (replaceAll cmpWork lgtWork root) rendersName
      if fs.isDir lgt_renders ∧
          get_latest_versioned_files lgt_renders (fs.listing lgt_renders) ≠ [] then
        (get_latest_versioned_files lgt_renders (fs.listing lgt_renders)).map
          (fun img => (img, lgtTag))
      else []
  else []

/-- `gather_all_latest_images` (lines 67-86 / 75-93): `os.walk` visits the
directories `roots` in order and each visited directory appends its own
contribution to `latest_images`. -/
def gather_all_latest_images (fs : FS) (roots : List FileName) :
    List (FileName × FileName) :=
  roots.foldl (fun acc root => acc ++ shotContribution fs root) []

/-- Value of a nonempty digit string, `int(...)` on the captured group. -/
def digitsToNat (ds : FileName) : Nat :=
  ds.foldl (fun a c => a * 10 + digitVal c) 0

/-- The tail `\.(\d+)\.jpg` of the output-filename regex, matched at the
start of `rest`: a dot, a nonempty greedy digit run, then `.jpg`.  (A
shorter-than-greedy digit run would leave a digit where `\.` must match, so
greedy matching is exact.) -/
def archTail (rest : FileName) : Option Nat :=
  match rest with
  | '.' :: rest2 =>
    if rest2.takeWhile Char.isDigit ≠ [] ∧
        (".jpg".toList).isPrefixOf (rest2.dropWhile Char.isDigit) then
      some (digitsToNat (rest2.takeWhile Char.isDigit))
    else none
  | _ => none

/-- One anchored attempt of
`Contact-Sheet_<folder>(?:_labeled)?\.(\d+)\.jpg` at the start of `file`:
the literal prefix, then the optional `_labeled` (tried greedily first, with
backtracking to the bare branch), then the version tail. -/
def archHere (folder file : FileName) : Option Nat :=
  let pre := "Contact-Sheet_".toList ++ folder
  if pre.isPrefixOf file then
    let rest := file.drop pre.length
    if ("_labeled".toList).isPrefixOf rest then
      match archTail (rest.drop 8) with
      | some v => some v
      | none => archTail rest
    else archTail rest
  else none

/-- `re.search(rf"Contact-Sheet_{folder}(?:_labeled)?\.(\d+)\.jpg", file)`
(lines 248/255 resp. 269/276): the leftmost successful attempt, returning the
captured version as an integer. -/
def archMatch (folder : FileName) : FileName → Option Nat
  | [] => archHere folder []
  | c :: rest =>
    match archHere folder (c :: rest) with
    | some v => some v
    | none => archMatch folder rest

/-- The version scan (lines 246-250 / 267-271): `version = 1`, then
`version = max(version, int(match.group(1)) + 1)` for every matching file of
the output directory listing. -/
def computeNextVersion (folder : FileName) (files : List FileName) : Nat :=
  files.foldl
    (fun v f =>
      match archMatch folder f with
      | some k => max v (k + 1)
      | none => v) 1

/-- One iteration of the move loop (lines 254-259 / 275-283): a matching
file with version below the new one is moved into `old`, deleting any
same-named file already there first (`os.remove` then `os.rename`).  The
state is `(main directory files, old directory files)`. -/
def moveStep (folder : FileName) (version : Nat)
    (st : List FileName × List FileName) (f : FileName) :
    List FileName × List FileName :=
  match archMatch folder f with
  | some k =>
    if k < version then (st.1.erase f, f :: st.2.filter (fun g2 => g2 != f))
    else st
  | none => st

/-- The move loop over the snapshot of the main directory listing. -/
def archiveOldFiles (folder : FileName) (version : Nat)
    (mainFiles oldFiles : List FileName) : List FileName × List FileName :=
  mainFiles.foldl (moveStep folder version) (mainFiles, oldFiles)

/-- The whole archiver block (lines 246-259 / 267-283): compute the next
version from the main output directory's regular files, then move every
superseded output into `old`. -/
def runArchiver (folder : FileName) (mainFiles oldFiles : List FileName) :
    Nat × List FileName × List FileName :=
  let version := computeNextVersion folder mainFiles
  (version, archiveOldFiles folder version mainFiles oldFiles)

/-- `'0' + d` as a character (the digits of Python `str(n)`). -/
def digitChar (d : Nat) : Char := Char.ofNat ('0'.toNat + d)

/-- Decimal digit accumulation for `str(n)`. -/
def natDigitsGo (n : Nat) (acc : FileName) : FileName :=
  if n = 0 then acc else natDigitsGo (n / 10) (digitChar (n % 10) :: acc)
termination_by n
decreasing_by exact Nat.div_lt_self (by omega) (by omega)

/-- Python `str(n)` for a natural number. -/
def natDigits (n : Nat) : FileName :=
  if n = 0 then "0".toList else natDigitsGo n []

/-- The read-node name `f"Read{idx+1}"` (line 354 of the wf script). -/
def readName (i : Nat) : FileName := "Read".toList ++ natDigits i

/-- The dot-node name `f"Dot{idx+1}"` (line 362 of the wf script). -/
def dotName (i : Nat) : FileName := "Dot".toList ++ natDigits i

/-- A read node of the exported graph: name, forward-slashed file path and
position. -/
structure NukeReadNode where
  name : FileName
  file : FileName
  xpos : Nat
  ypos : Nat
deriving Repr, DecidableEq

/-- An organizing (dot) node of the exported graph. -/
structure NukeDotNode where
  name : FileName
  xpos : Nat
  ypos : Nat
deriving Repr, DecidableEq

/-- The summary node of the exported graph. -/
structure NukeContactSheetNode where
  inputs : Nat
  rows : Nat
  columns : Nat
  xpos : Nat
  ypos : Nat
deriving Repr, DecidableEq

/-- The read nodes of the Nuke export block (wf script lines 346-357):
`spacing = 180`, `start_x = 0`, `lgt_ypos = 0`, `cmp_ypos = 200`; node `idx`
sits at `x = start_x + idx * spacing`, on the top row for `"LGT"` and at the
fixed offset below otherwise, reading the backslash-to-slash normalised
path.  The input is the filename-sorted tuple list. -/
def nukeReadNodes (imgs : List (FileName × FileName)) : List NukeReadNode :=
  imgs.enum.map (fun ipd =>
    { name := readName (ipd.1 + 1),
      file := replaceAll ['\\'] ['/'] ipd.2.1,
      xpos := 0 + ipd.1 * 180,
      ypos := if ipd.2.2 = lgtTag then 0 else 200 })

/-- The dot nodes (wf script lines 360-366): below each read, at
`(xpos + 34, contact_ypos)` with `contact_ypos = 400`. -/
def nukeDotNodes (imgs : List (FileName × FileName)) : List NukeDotNode :=
  imgs.enum.map (fun ipd =>
    { name := dotName (ipd.1 + 1),
      xpos := 0 + ipd.1 * 180 + 34,
      ypos := 400 })

/-- The summary node (wf script lines 370-382): `rows` and `columns` both
`ceil(sqrt N)`, positioned at the midpoint of the first and last read-node
x-positions, 20 below the dot row. -/
def nukeContactSheetNode (imgs : List (FileName × FileName)) :
    NukeContactSheetNode :=
  let read_positions := imgs.enum.map (fun ipd => 0 + ipd.1 * 180)
  let center_x :=
    if read_positions ≠ [] then
      (read_positions.headD 0 + read_positions.getLastD 0) / 2
    else 0
  { inputs := imgs.length,
    rows := ceilSqrt imgs.length,
    columns := ceilSqrt imgs.length,
    xpos := center_x,
    ypos := 400 + 20 }

/-! ## Lemmas about the grid loop and ceiling division -/

theorem gridLoop_ge (n c : Nat) : c ≤ gridLoop n c := by
  induction c using gridLoop.induct n with
  | case1 x h ih =>
    rw [gridLoop]
    simp only [if_pos h]
    omega
  | case2 x h =>
    rw [gridLoop]
    simp only [if_neg h]
    exact le_refl x

theorem gridLoop_exit (n c : Nat) : ¬ (gridLoop n c < cdiv n (gridLoop n c)) := by
  induction c using gridLoop.induct n with
  | case1 x h ih =>
    rw [gridLoop]
    simp only [if_pos h]
    exact ih
  | case2 x h =>
    rw [gridLoop]
    simp only [if_neg h]
    exact h

theorem le_mul_cdiv (n c : Nat) (hc : 0 < c) : n ≤ c * cdiv n c := by
  have h := le_smul_ceilDiv (α := ℕ) (β := ℕ) hc (b := n)
  simpa [smul_eq_mul, Nat.ceilDiv_eq_add_pred_div, cdiv] using h

theorem mul_cdiv_pred_lt (n c : Nat) (hn : 0 < n) (hc : 0 < c) :
    c * (cdiv n c - 1) < n := by
  have hpos : 0 < cdiv n c := by
    by_contra h0
    have h1 : cdiv n c ≤ 0 := by omega
    have h2 : n ≤ c * 0 := by
      have h3 := (ceilDiv_le_iff_le_mul (α := ℕ) hc (b := n) (c := 0)).mp
      simp only [Nat.ceilDiv_eq_add_pred_div] at h3
      exact h3 h1
    omega
  have h3 : ¬ (cdiv n c ≤ cdiv n c - 1) := by omega
  have h4 : ¬ (n ≤ c * (cdiv n c - 1)) := by
    intro hle
    exact h3 ((ceilDiv_le_iff_le_mul (α := ℕ) hc (b := n) (c := cdiv n c - 1)).mpr hle)
  omega

theorem ceilSqrt_pos (n : Nat) (hn : 1 ≤ n) : 1 ≤ ceilSqrt n := by
  unfold ceilSqrt
  have h := Nat.sqrt_pos.mpr hn
  split <;> omega

theorem gridShape_columns_pos (n : Nat) (hn : 1 ≤ n) : 1 ≤ (gridShape n).1 := by
  show 1 ≤ gridLoop n (ceilSqrt n)
  exact le_trans (ceilSqrt_pos n hn) (gridLoop_ge n (ceilSqrt n))

/-! ## C2: grid layout invariant -/

/-- C2: for every `N ≥ 1`, the grid chosen by `create_contact_sheet`
(`columns = ceil(sqrt N)`, `rows = ceil(N / columns)`, then incrementing
`columns` while `columns < rows`) satisfies `columns ≥ rows` and
`columns * rows ≥ N > columns * (rows - 1)`; the adjustment loop terminates
(the exit condition `¬(columns < rows)` holds of the result, and `gridLoop`
is a total function). -/
theorem grid_shape_invariant (n : Nat) (hn : 1 ≤ n) :
    (gridShape n).2 ≤ (gridShape n).1 ∧
    n ≤ (gridShape n).1 * (gridShape n).2 ∧
    (gridShape n).1 * ((gridShape n).2 - 1) < n := by
  have hc : 1 ≤ (gridShape n).1 := gridShape_columns_pos n hn
  have hrows : (gridShape n).2 = cdiv n (gridShape n).1 := rfl
  refine ⟨?_, ?_, ?_⟩
  · rw [hrows]
    have h := gridLoop_exit n (ceilSqrt n)
    exact Nat.not_lt.mp h
  · rw [hrows]
    exact le_mul_cdiv n _ hc
  · rw [hrows]
    exact mul_cdiv_pred_lt n _ hn hc

theorem grid_shape_invariant_witness :
    1 ≤ 5 ∧
    ((gridShape 5).2 ≤ (gridShape 5).1 ∧
     5 ≤ (gridShape 5).1 * (gridShape 5).2 ∧
     (gridShape 5).1 * ((gridShape 5).2 - 1) < 5) :=
  ⟨by decide, grid_shape_invariant 5 (by decide)⟩

/-! ## C3: the resize width is truncated, not rounded -/

/-- C3 as stated is false: `resize_to_height` computes
`int((w / h) * height)`, which truncates; at `w = 1, h = 3, H = 200` the code
yields `⌊200 / 3⌋ = 66` while rounding yields `67`. -/
theorem resize_round_counterexample :
    ¬ ((resize_to_height 1 3 200).1 = resizeWidthRoundSpec 1 3 200) := by
  decide

/-- C3 (amended): for every image with `h > 0`, resizing to target height `H`
produces `new_width = int(w / h * H)`, the *truncation* (floor) of the
aspect-preserving width: it satisfies
`h * new_width ≤ w * H < h * (new_width + 1)`, and the resized height is `H`. -/
theorem resize_floor (w h H : Nat) (hh : 0 < h) :
    (resize_to_height w h H).2 = H ∧
    h * (resize_to_height w h H).1 ≤ w * H ∧
    w * H < h * ((resize_to_height w h H).1 + 1) := by
  refine ⟨rfl, ?_, ?_⟩
  · exact Nat.mul_div_le (w * H) h
  · exact Nat.lt_mul_div_succ (w * H) hh

theorem resize_floor_witness :
    0 < 3 ∧
    ((resize_to_height 1 3 200).2 = 200 ∧
     3 * (resize_to_height 1 3 200).1 ≤ 1 * 200 ∧
     1 * 200 < 3 * ((resize_to_height 1 3 200).1 + 1)) :=
  ⟨by decide, resize_floor 1 3 200 (by decide)⟩

/-! ## Lemmas about the per-column maxima fold -/

theorem getD_set_self (l : List Nat) (i x : Nat) (h : i < l.length) :
    (l.set i x).getD i 0 = x := by
  rw [List.getD_eq_getElem _ _ (by simpa using h)]
  exact List.getElem_set_self _

theorem getD_set_ne (l : List Nat) (i j x : Nat) (hne : i ≠ j) :
    (l.set i x).getD j 0 = l.getD j 0 := by
  by_cases hj : j < l.length
  · rw [List.getD_eq_getElem _ _ (by simpa using hj), List.getD_eq_getElem _ _ hj]
    exact List.getElem_set_ne hne _
  · rw [List.getD_eq_default _ _ (by simpa using Nat.not_lt.mp hj),
        List.getD_eq_default _ _ (Nat.not_lt.mp hj)]

theorem colStep_length (columns : Nat) (acc : List Nat) (iw : Nat × Nat) :
    (colStep columns acc iw).length = acc.length := by
  simp [colStep]

theorem foldl_colStep_length (columns : Nat) (l : List (Nat × Nat)) (acc : List Nat) :
    (l.foldl (colStep columns) acc).length = acc.length := by
  induction l generalizing acc with
  | nil => rfl
  | cons iw t ih => rw [List.foldl_cons, ih, colStep_length]

theorem foldl_colStep_getD (columns : Nat) (l : List (Nat × Nat)) (acc : List Nat)
    (hlen : acc.length = columns) (c : Nat) (hc : c < columns) :
    (l.foldl (colStep columns) acc).getD c 0 =
      (l.filter (fun iw => iw.1 % columns == c)).foldl (fun m iw => max m iw.2)
        (acc.getD c 0) := by
  induction l generalizing acc with
  | nil => rfl
  | cons iw t ih =>
    rw [List.foldl_cons, ih (colStep columns acc iw) (by rw [colStep_length]; exact hlen)]
    by_cases hcol : iw.1 % columns = c
    · have hfil : (iw :: t).filter (fun iw => iw.1 % columns == c) =
          iw :: t.filter (fun iw => iw.1 % columns == c) := by
        simp [List.filter_cons, hcol]
      rw [hfil, List.foldl_cons]
      have hset : (colStep columns acc iw).getD c 0 = max (acc.getD c 0) iw.2 := by
        unfold colStep
        rw [hcol]
        exact getD_set_self _ _ _ (by rw [hlen]; exact hc)
      rw [hset]
    · have hfil : (iw :: t).filter (fun iw => iw.1 % columns == c) =
          t.filter (fun iw => iw.1 % columns == c) := by
        simp [List.filter_cons, hcol]
      rw [hfil]
      have hset : (colStep columns acc iw).getD c 0 = acc.getD c 0 := by
        unfold colStep
        exact getD_set_ne _ _ _ _ hcol
      rw [hset]

theorem computeColWidths_length (columns : Nat) (widths : List Nat) :
    (computeColWidths columns widths).length = columns := by
  unfold computeColWidths
  rw [foldl_colStep_length, List.length_replicate]

theorem getD_replicate_zero (n c : Nat) : (List.replicate n (0 : Nat)).getD c 0 = 0 := by
  by_cases hc : c < n
  · rw [List.getD_eq_getElem _ _ (by simpa using hc)]
    exact List.getElem_replicate _ _
  · exact List.getD_eq_default _ _ (by simpa using Nat.not_lt.mp hc)

theorem computeColWidths_getD (columns : Nat) (widths : List Nat) (c : Nat)
    (hc : c < columns) :
    (computeColWidths columns widths).getD c 0 =
      (widths.enum.filter (fun iw => iw.1 % columns == c)).foldl
        (fun m iw => max m iw.2) 0 := by
  unfold computeColWidths
  rw [foldl_colStep_getD columns _ _ (List.length_replicate _ _) c hc,
    getD_replicate_zero]

theorem le_foldl_max_init (l : List (Nat × Nat)) (a : Nat) :
    a ≤ l.foldl (fun m iw => max m iw.2) a := by
  induction l generalizing a with
  | nil => exact le_refl a
  | cons iw t ih => exact le_trans (le_max_left a iw.2) (ih _)

theorem mem_le_foldl_max (l : List (Nat × Nat)) (a : Nat) (x : Nat × Nat) (hx : x ∈ l) :
    x.2 ≤ l.foldl (fun m iw => max m iw.2) a := by
  induction l generalizing a with
  | nil => cases hx
  | cons iw t ih =>
    cases hx with
    | head => exact le_trans (le_max_right a x.2) (le_foldl_max_init t _)
    | tail _ h => exact ih _ h

/-! ## C4: canvas size and per-column widths -/

/-- C4: for every layout produced by `create_contact_sheet` on a nonempty
list, the canvas width is exactly `sum(column_widths) + (columns+1)*padding`
and the canvas height exactly `title_height + rows*(thumb_height+padding) +
padding`; there is one column width per column; the width of column `c` is
the maximum resized width over the images assigned to it in row-major order
(`col = i mod columns`); and every image's resized width is at most its
assigned column's width. -/
theorem canvas_size_and_column_widths (imgSize : FileName → Nat × Nat)
    (image_tuples : List (FileName × FileName)) (labeled : Bool)
    (h : image_tuples ≠ []) :
    let L := contactSheetCore imgSize image_tuples labeled
    let widths := image_tuples.map
      (fun pd => (resize_to_height (imgSize pd.1).1 (imgSize pd.1).2 fixed_height).1)
    L.sheetWidth = L.colWidths.sum + (L.columns + 1) * padding ∧
    L.sheetHeight = title_height + L.rows * (fixed_height + padding) + padding ∧
    L.colWidths.length = L.columns ∧
    (∀ c, c < L.columns → L.colWidths.getD c 0 =
      (widths.enum.filter (fun iw => iw.1 % L.columns == c)).foldl
        (fun m iw => max m iw.2) 0) ∧
    (∀ iw ∈ widths.enum, iw.2 ≤ L.colWidths.getD (iw.1 % L.columns) 0) := by
  intro L widths
  have hn : 1 ≤ image_tuples.length := by
    cases image_tuples with
    | nil => exact absurd rfl h
    | cons a t => exact Nat.succ_le_succ (Nat.zero_le _)
  have hcols : 1 ≤ L.columns := gridShape_columns_pos _ hn
  refine ⟨rfl, rfl, computeColWidths_length _ _, ?_, ?_⟩
  · intro c hc
    exact computeColWidths_getD _ _ c hc
  · intro iw hiw
    have hc : iw.1 % L.columns < L.columns := Nat.mod_lt _ hcols
    rw [show L.colWidths = computeColWidths L.columns widths from rfl,
      computeColWidths_getD _ _ _ hc]
    refine mem_le_foldl_max _ _ _ ?_
    rw [List.mem_filter]
    exact ⟨hiw, by simp⟩

theorem canvas_size_and_column_widths_witness :
    ([(['a'], ['C','M','P'])] : List (FileName × FileName)) ≠ [] ∧
    (let L := contactSheetCore (fun _ => (300, 200)) [(['a'], ['C','M','P'])] false
     let widths := ([(['a'], ['C','M','P'])] : List (FileName × FileName)).map
       (fun pd => (resize_to_height ((fun _ => ((300 : Nat), (200 : Nat))) pd.1).1
         ((fun _ => ((300 : Nat), (200 : Nat))) pd.1).2 fixed_height).1)
     L.sheetWidth = L.colWidths.sum + (L.columns + 1) * padding ∧
     L.sheetHeight = title_height + L.rows * (fixed_height + padding) + padding ∧
     L.colWidths.length = L.columns ∧
     (∀ c, c < L.columns → L.colWidths.getD c 0 =
       (widths.enum.filter (fun iw => iw.1 % L.columns == c)).foldl
         (fun m iw => max m iw.2) 0) ∧
     (∀ iw ∈ widths.enum, iw.2 ≤ L.colWidths.getD (iw.1 % L.columns) 0)) :=
  ⟨by decide,
   canvas_size_and_column_widths (fun _ => (300, 200)) [(['a'], ['C','M','P'])] false
     (by decide)⟩

/-! ## C5: empty input is a reported error -/

/-- C5: with an empty image list, `create_contact_sheet` raises
`ValueError("No images to process.")` before producing any output; with any
nonempty list that check does not fire and a layout is produced. -/
theorem empty_input_raises (imgSize : FileName → Nat × Nat)
    (image_tuples : List (FileName × FileName)) (labeled : Bool)
    (h : image_tuples ≠ []) :
    create_contact_sheet imgSize [] labeled =
      Except.error ("No images to process.".toList) ∧
    ∃ l, create_contact_sheet imgSize image_tuples labeled = Except.ok l := by
  constructor
  · rfl
  · refine ⟨contactSheetCore imgSize image_tuples labeled, ?_⟩
    unfold create_contact_sheet
    rw [if_neg]
    simpa using h

theorem empty_input_raises_witness :
    ([(['a'], ['C','M','P'])] : List (FileName × FileName)) ≠ [] ∧
    (create_contact_sheet (fun _ => (300, 200)) [] false =
       Except.error ("No images to process.".toList) ∧
     ∃ l, create_contact_sheet (fun _ => (300, 200)) [(['a'], ['C','M','P'])] false =
       Except.ok l) :=
  ⟨by decide, empty_input_raises (fun _ => (300, 200)) [(['a'], ['C','M','P'])] false
    (by decide)⟩

/-! ## Lemmas about the label helpers -/

theorem all_takeWhile (p : Char → Bool) (l : List Char) : (l.takeWhile p).all p = true := by
  induction l with
  | nil => rfl
  | cons c t ih =>
    rw [List.takeWhile]
    cases hp : p c with
    | true => simp [hp, ih]
    | false => rfl

theorem extract_sh_code_shape (cs : FileName) :
    extract_sh_code cs = [] ∨
    ∃ ds, extract_sh_code cs = 's' :: 'h' :: ds ∧ ds ≠ [] ∧
      ds.all Char.isDigit = true := by
  induction cs using extract_sh_code.induct with
  | case1 => left; rfl
  | case2 d tail h =>
    right
    refine ⟨d :: tail.takeWhile Char.isDigit, ?_, by simp, ?_⟩
    · show extract_sh_code ('s' :: 'h' :: d :: tail) = _
      rw [extract_sh_code]
      simp [h]
    · simp [h, all_takeWhile]
  | case3 d tail h ih =>
    show (extract_sh_code ('s' :: 'h' :: d :: tail) = []) ∨ _
    rw [extract_sh_code]
    simp only [if_neg h]
    exact ih
  | case4 c rest h ih =>
    have heq : extract_sh_code (c :: rest) = extract_sh_code rest := by
      rw [extract_sh_code.eq_def]
      split
      · next heq2 => exact absurd heq2 (by simp)
      · next c2 r2 heq2 =>
        injection heq2 with h1 h2
        subst h1
        subst h2
        split
        · next d tail => exact (h d tail rfl rfl).elim
        · rfl
    rw [heq]
    exact ih

theorem find_version_shape (cs : FileName) :
    find_version cs = none ∨
    ∃ a b d, find_version cs = some [a, b, d] ∧
      a.isDigit = true ∧ b.isDigit = true ∧ d.isDigit = true := by
  induction cs using find_version.induct with
  | case1 => left; rfl
  | case2 a b d tail h =>
    right
    refine ⟨a, b, d, ?_, ?_, ?_, ?_⟩ <;> simp_all [find_version]
  | case3 a b d tail h ih =>
    have heq : find_version ('.' :: 'v' :: a :: b :: d :: '.' :: tail) =
        find_version ('v' :: a :: b :: d :: '.' :: tail) := by
      rw [find_version]
      simp [h]
    rw [heq]
    exact ih
  | case4 c rest h ih =>
    have heq : find_version (c :: rest) = find_version rest := by
      rw [find_version.eq_def]
      split
      · next heq2 => exact absurd heq2 (by simp)
      · next c2 r2 heq2 =>
        injection heq2 with h1 h2
        subst h1
        subst h2
        split
        · next a b d tail => exact (h a b d tail rfl rfl).elim
        · rfl
    rw [heq]
    exact ih

theorem digit_ne_underscore (c : Char) (h : c.isDigit = true) : c ≠ '_' := by
  intro heq
  subst heq
  exact absurd h (by decide)

theorem all_digits_getLast?_ne (ds : List Char) (h : ds.all Char.isDigit = true) :
    ds.getLast? ≠ some '_' := by
  induction ds with
  | nil => simp
  | cons c t ih =>
    cases t with
    | nil =>
      have hc : c.isDigit = true := by simpa using h
      intro heq
      have hcu : c = '_' := by simpa using heq
      exact digit_ne_underscore c hc hcu
    | cons c2 t2 =>
      rw [List.getLast?_cons_cons]
      simp only [List.all_cons, Bool.and_eq_true] at h
      apply ih
      simp only [List.all_cons, Bool.and_eq_true]
      exact h.2

theorem sh_code_getLast?_ne (ds : List Char) (hne : ds ≠ [])
    (hall : ds.all Char.isDigit = true) :
    ('s' :: 'h' :: ds).getLast? ≠ some '_' := by
  cases ds with
  | nil => exact absurd rfl hne
  | cons e t =>
    rw [List.getLast?_cons_cons, List.getLast?_cons_cons]
    exact all_digits_getLast?_ne _ hall

/-! ## C6: label composition -/

/-- C6: for every filename and department tag, the thumbnail label is
`<shot-code><_dept><_vNNN>` in that fixed order; any part may be absent and
each separator appears exactly with its part (absent dept/version contribute
nothing); when the shot code is present the label starts with it (no leading
separator); when it is absent the label starts directly with the dept/version
parts; for the department tags the program produces (`""`, `"CMP"`, `"LGT"`)
the label never ends in a stray separator.  The shot code itself is `sh`
followed by a nonempty run of digits when present. -/
theorem label_composition (filename dept : FileName) :
    makeLabel filename dept =
      extract_sh_code filename ++ dept_str_of dept ++ version_str_of filename ∧
    (extract_sh_code filename = [] →
      makeLabel filename dept = dept_str_of dept ++ version_str_of filename) ∧
    (dept = [] → dept_str_of dept = []) ∧
    (dept ≠ [] → dept_str_of dept = '_' :: dept) ∧
    (find_version filename = none → version_str_of filename = []) ∧
    (∀ ds, find_version filename = some ds →
      version_str_of filename = '_' :: 'v' :: ds) ∧
    (extract_sh_code filename = [] ∨
      ∃ ds, extract_sh_code filename = 's' :: 'h' :: ds ∧ ds ≠ [] ∧
        ds.all Char.isDigit = true) ∧
    (extract_sh_code filename ≠ [] → (makeLabel filename dept).head? = some 's') ∧
    ((dept = [] ∨ dept = "CMP".toList ∨ dept = "LGT".toList) →
      (makeLabel filename dept).getLast? ≠ some '_') := by
  have hsh := extract_sh_code_shape filename
  have hv := find_version_shape filename
  have h1 : makeLabel filename dept =
      extract_sh_code filename ++ dept_str_of dept ++ version_str_of filename := by
    unfold makeLabel
    by_cases hce : extract_sh_code filename = []
    · rw [if_pos hce, hce]
      simp
    · rw [if_neg hce]
  refine ⟨h1, ?_, ?_, ?_, ?_, ?_, hsh, ?_, ?_⟩
  · intro hce
    rw [h1, hce]
    simp
  · intro hd
    simp [dept_str_of, hd]
  · intro hd
    simp [dept_str_of, hd]
  · intro hnone
    simp [version_str_of, hnone]
  · intro ds hsome
    simp [version_str_of, hsome]
  · intro hne
    rcases hsh with h0 | ⟨ds, heq, _, _⟩
    · exact absurd h0 hne
    · rw [h1, heq]
      rfl
  · intro hdept
    rw [h1]
    rcases hv with hvnone | ⟨a, b, d, hveq, ha, hb, hd2⟩
    · have hver : version_str_of filename = [] := by simp [version_str_of, hvnone]
      rw [hver, List.append_nil]
      rcases hdept with rfl | rfl | rfl
      · have hds : dept_str_of ([] : FileName) = [] := by simp [dept_str_of]
        rw [hds, List.append_nil]
        rcases hsh with h0 | ⟨ds, heq, hne, hall⟩
        · rw [h0]
          simp
        · rw [heq]
          exact sh_code_getLast?_ne ds hne hall
      · rw [show dept_str_of ("CMP".toList) = '_' :: 'C' :: 'M' :: 'P' :: [] from rfl,
          List.getLast?_append_of_ne_nil _ (by simp)]
        decide
      · rw [show dept_str_of ("LGT".toList) = '_' :: 'L' :: 'G' :: 'T' :: [] from rfl,
          List.getLast?_append_of_ne_nil _ (by simp)]
        decide
    · have hver : version_str_of filename = '_' :: 'v' :: [a, b, d] := by
        simp [version_str_of, hveq]
      rw [hver, List.getLast?_append_of_ne_nil _ (by simp)]
      have hlast : ('_' :: 'v' :: [a, b, d]).getLast? = some d := rfl
      rw [hlast]
      intro heq
      have hdu : d = '_' := by simpa using heq
      exact digit_ne_underscore d hd2 hdu

theorem label_composition_witness :
    makeLabel ("sh042_CMP.v005.0001.png".toList) ("CMP".toList) =
      extract_sh_code ("sh042_CMP.v005.0001.png".toList) ++
        dept_str_of ("CMP".toList) ++
        version_str_of ("sh042_CMP.v005.0001.png".toList) ∧
    (extract_sh_code ("sh042_CMP.v005.0001.png".toList) = [] →
      makeLabel ("sh042_CMP.v005.0001.png".toList) ("CMP".toList) =
        dept_str_of ("CMP".toList) ++
          version_str_of ("sh042_CMP.v005.0001.png".toList)) ∧
    ("CMP".toList = ([] : FileName) → dept_str_of ("CMP".toList) = []) ∧
    ("CMP".toList ≠ ([] : FileName) →
      dept_str_of ("CMP".toList) = '_' :: "CMP".toList) ∧
    (find_version ("sh042_CMP.v005.0001.png".toList) = none →
      version_str_of ("sh042_CMP.v005.0001.png".toList) = []) ∧
    (∀ ds, find_version ("sh042_CMP.v005.0001.png".toList) = some ds →
      version_str_of ("sh042_CMP.v005.0001.png".toList) = '_' :: 'v' :: ds) ∧
    (extract_sh_code ("sh042_CMP.v005.0001.png".toList) = [] ∨
      ∃ ds, extract_sh_code ("sh042_CMP.v005.0001.png".toList) = 's' :: 'h' :: ds ∧
        ds ≠ [] ∧ ds.all Char.isDigit = true) ∧
    (extract_sh_code ("sh042_CMP.v005.0001.png".toList) ≠ [] →
      (makeLabel ("sh042_CMP.v005.0001.png".toList) ("CMP".toList)).head? =
        some 's') ∧
    (("CMP".toList = ([] : FileName) ∨ "CMP".toList = "CMP".toList ∨
        "CMP".toList = "LGT".toList) →
      (makeLabel ("sh042_CMP.v005.0001.png".toList) ("CMP".toList)).getLast? ≠
        some '_') :=
  label_composition ("sh042_CMP.v005.0001.png".toList) ("CMP".toList)

/-! ## C10: the labeled flag only affects label drawing -/

/-- C10: for the same input list, the grid dimensions, per-column widths,
x-offsets, canvas size and every thumbnail paste position are identical
between the labeled and unlabeled runs of `create_contact_sheet`; only the
label drawing operations differ. -/
theorem labeled_flag_only_labels (imgSize : FileName → Nat × Nat)
    (image_tuples : List (FileName × FileName)) :
    (create_contact_sheet imgSize image_tuples true).map layoutGeometry =
    (create_contact_sheet imgSize image_tuples false).map layoutGeometry := by
  unfold create_contact_sheet
  split
  · rfl
  · rfl

/-! ## Lemmas for the version resolver -/

theorem parse_endsWithPng (f : FileName) (bv : FileName × Nat)
    (h : parseRenderFilename f = some bv) : endsWithPng f = true := by
  rw [parseRenderFilename.eq_def] at h
  rw [endsWithPng.eq_def]
  split at h
  · rename_i heq
    rw [heq]
    rfl
  · exact absurd h (by simp)

theorem scanRenderFile_eq (folder : FileName)
    (g : List (FileName × List (Nat × List FileName))) (f : FileName) :
    scanRenderFile folder g f =
      match parseRenderFilename f with
      | some bv => insertRender g bv.1 bv.2 (joinPath folder f)
      | none => g := by
  unfold scanRenderFile
  cases hp : parseRenderFilename f with
  | some bv => simp [parse_endsWithPng f bv hp, hp]
  | none =>
    cases he : endsWithPng f with
    | false => simp [he]
    | true => simp [he, hp]

theorem bucketOf_nil (w : Nat) : bucketOf [] w = [] := rfl

theorem bucketOf_cons (v0 : Nat) (ps : List FileName)
    (rest : List (Nat × List FileName)) (w : Nat) :
    bucketOf ((v0, ps) :: rest) w = if v0 = w then ps else bucketOf rest w := by
  by_cases h : v0 = w
  · simp [bucketOf, List.find?_cons, h]
  · simp [bucketOf, List.find?_cons, h]

theorem bucketOf_insertVersion (vs : List (Nat × List FileName)) (v : Nat)
    (p : FileName) (w : Nat) :
    bucketOf (insertVersion vs v p) w =
      if w = v then bucketOf vs v ++ [p] else bucketOf vs w := by
  induction vs with
  | nil =>
    by_cases hw : w = v
    · subst hw
      simp [insertVersion, bucketOf_cons, bucketOf_nil]
    · have hw2 : ¬ v = w := by omega
      simp [insertVersion, bucketOf_cons, bucketOf_nil, hw, hw2]
  | cons q rest ih =>
    obtain ⟨v0, ps⟩ := q
    by_cases h0 : v0 = v
    · subst h0
      rw [show insertVersion ((v0, ps) :: rest) v0 p = (v0, ps ++ [p]) :: rest by
        simp [insertVersion]]
      by_cases hw : w = v0
      · subst hw
        simp [bucketOf_cons]
      · have hw2 : ¬ v0 = w := by omega
        simp [bucketOf_cons, hw, hw2]
    · rw [show insertVersion ((v0, ps) :: rest) v p =
          (v0, ps) :: insertVersion rest v p by simp [insertVersion, h0]]
      by_cases hw : w = v0
      · subst hw
        have hwv : ¬ (w = v) := by omega
        simp [bucketOf_cons, hwv]
      · have hw2 : ¬ v0 = w := by omega
        rw [bucketOf_cons, if_neg hw2, ih]
        by_cases hv : w = v
        · rw [if_pos hv, if_pos hv, bucketOf_cons, if_neg (by omega : ¬ v0 = v)]
        · rw [if_neg hv, if_neg hv, bucketOf_cons, if_neg hw2]

theorem insertVersion_ne_nil (vs : List (Nat × List FileName)) (v : Nat)
    (p : FileName) : insertVersion vs v p ≠ [] := by
  cases vs with
  | nil => simp [insertVersion]
  | cons q rest =>
    obtain ⟨v0, ps⟩ := q
    by_cases h : v0 = v <;> simp [insertVersion, h]

theorem insertVersion_buckets_ne_nil (vs : List (Nat × List FileName)) (v : Nat)
    (p : FileName) (hvs : ∀ q ∈ vs, q.2 ≠ [])
    (q : Nat × List FileName) (hq : q ∈ insertVersion vs v p) : q.2 ≠ [] := by
  induction vs generalizing q with
  | nil =>
    simp [insertVersion] at hq
    subst hq
    simp
  | cons q0 rest ih =>
    obtain ⟨v0, ps⟩ := q0
    by_cases h : v0 = v
    · subst h
      rw [show insertVersion ((v0, ps) :: rest) v0 p = (v0, ps ++ [p]) :: rest by
        simp [insertVersion]] at hq
      cases hq with
      | head => simp
      | tail _ hmem => exact hvs q (List.mem_cons_of_mem _ hmem)
    · rw [show insertVersion ((v0, ps) :: rest) v p =
          (v0, ps) :: insertVersion rest v p by simp [insertVersion, h]] at hq
      cases hq with
      | head => exact hvs (v0, ps) (List.mem_cons_self _ _)
      | tail _ hmem =>
        exact ih (fun q2 hq2 => hvs q2 (List.mem_cons_of_mem _ hq2)) q hmem

theorem pathsOf_nil (b : FileName) (v : Nat) : pathsOf [] b v = [] := rfl

theorem pathsOf_cons (b0 : FileName) (vs : List (Nat × List FileName))
    (rest : List (FileName × List (Nat × List FileName))) (b : FileName) (v : Nat) :
    pathsOf ((b0, vs) :: rest) b v =
      if b0 = b then bucketOf vs v else pathsOf rest b v := by
  by_cases h : b0 = b <;> simp [pathsOf, List.find?_cons, h]

theorem keys_insertRender (g : List (FileName × List (Nat × List FileName)))
    (b : FileName) (v : Nat) (p : FileName) :
    (insertRender g b v p).map (fun e => e.1) =
      if b ∈ g.map (fun e => e.1) then g.map (fun e => e.1)
      else g.map (fun e => e.1) ++ [b] := by
  induction g with
  | nil => simp [insertRender]
  | cons e rest ih =>
    obtain ⟨b0, vs⟩ := e
    by_cases h : b0 = b
    · subst h
      rw [show insertRender ((b0, vs) :: rest) b0 v p =
          (b0, insertVersion vs v p) :: rest by simp [insertRender]]
      rw [List.map_cons, List.map_cons, if_pos (by simp)]
    · rw [show insertRender ((b0, vs) :: rest) b v p =
          (b0, vs) :: insertRender rest b v p by simp [insertRender, h]]
      rw [List.map_cons, List.map_cons, ih]
      by_cases hmem : b ∈ rest.map (fun e => e.1)
      · rw [if_pos hmem, if_pos (by simp [List.mem_cons, hmem])]
      · rw [if_neg hmem, if_neg (by
          intro hb
          rcases List.mem_cons.mp hb with h1 | h2
          · exact h h1.symm
          · exact hmem h2)]
        simp

theorem keys_nodup_insertRender (g : List (FileName × List (Nat × List FileName)))
    (b : FileName) (v : Nat) (p : FileName)
    (hg : (g.map (fun e => e.1)).Nodup) :
    ((insertRender g b v p).map (fun e => e.1)).Nodup := by
  rw [keys_insertRender]
  by_cases hmem : b ∈ g.map (fun e => e.1)
  · rw [if_pos hmem]
    exact hg
  · rw [if_neg hmem]
    refine List.Nodup.append hg (List.nodup_singleton b) ?_
    intro x hx hxb
    rw [List.mem_singleton] at hxb
    subst hxb
    exact hmem hx

theorem insertRender_buckets_ne_nil (g : List (FileName × List (Nat × List FileName)))
    (b : FileName) (v : Nat) (p : FileName)
    (hg : ∀ e ∈ g, ∀ q ∈ e.2, q.2 ≠ [])
    (e2 : FileName × List (Nat × List FileName)) (he : e2 ∈ insertRender g b v p)
    (q : Nat × List FileName) (hq : q ∈ e2.2) : q.2 ≠ [] := by
  induction g generalizing e2 with
  | nil =>
    rw [show insertRender [] b v p = [(b, [(v, [p])])] from rfl] at he
    rw [List.mem_singleton] at he
    subst he
    rw [List.mem_singleton] at hq
    subst hq
    simp
  | cons e rest ih =>
    obtain ⟨b0, vs⟩ := e
    by_cases h : b0 = b
    · subst h
      rw [show insertRender ((b0, vs) :: rest) b0 v p =
          (b0, insertVersion vs v p) :: rest by simp [insertRender]] at he
      cases he with
      | head =>
        exact insertVersion_buckets_ne_nil vs v p
          (fun q2 hq2 => hg (b0, vs) (List.mem_cons_self _ _) q2 hq2) q hq
      | tail _ hmem => exact hg e2 (List.mem_cons_of_mem _ hmem) q hq
    · rw [show insertRender ((b0, vs) :: rest) b v p =
          (b0, vs) :: insertRender rest b v p by simp [insertRender, h]] at he
      cases he with
      | head => exact hg (b0, vs) (List.mem_cons_self _ _) q hq
      | tail _ hmem =>
        exact ih (fun e3 he3 q3 hq3 => hg e3 (List.mem_cons_of_mem _ he3) q3 hq3)
          e2 hmem hq

theorem pathsOf_insertRender (g : List (FileName × List (Nat × List FileName)))
    (b : FileName) (v : Nat) (p : FileName) (b2 : FileName) (v2 : Nat) :
    pathsOf (insertRender g b v p) b2 v2 =
      if b2 = b ∧ v2 = v then pathsOf g b2 v2 ++ [p] else pathsOf g b2 v2 := by
  induction g with
  | nil =>
    rw [show insertRender [] b v p = [(b, [(v, [p])])] from rfl]
    by_cases hb : b = b2
    · subst hb
      rw [pathsOf_cons, if_pos rfl, pathsOf_nil]
      by_cases hv : v2 = v
      · subst hv
        simp [bucketOf_cons]
      · have hv2 : ¬ v = v2 := by omega
        simp [bucketOf_cons, bucketOf_nil, hv, hv2]
    · have hb2 : ¬ b2 = b := fun h2 => hb h2.symm
      rw [pathsOf_cons, if_neg hb, pathsOf_nil, if_neg (by tauto)]
  | cons e rest ih =>
    obtain ⟨b0, vs⟩ := e
    by_cases hb0 : b0 = b
    · subst hb0
      rw [show insertRender ((b0, vs) :: rest) b0 v p =
          (b0, insertVersion vs v p) :: rest by simp [insertRender]]
      by_cases hb2 : b0 = b2
      · subst hb2
        rw [pathsOf_cons, if_pos rfl, bucketOf_insertVersion, pathsOf_cons, if_pos rfl]
        by_cases hv : v2 = v
        · subst hv
          rw [if_pos rfl, if_pos ⟨rfl, rfl⟩]
        · rw [if_neg hv, if_neg (by tauto)]
      · have hb2n : ¬ b2 = b0 := fun h2 => hb2 h2.symm
        rw [pathsOf_cons, if_neg hb2, if_neg (by tauto), pathsOf_cons, if_neg hb2]
    · rw [show insertRender ((b0, vs) :: rest) b v p =
          (b0, vs) :: insertRender rest b v p by simp [insertRender, hb0]]
      by_cases hb2 : b0 = b2
      · subst hb2
        have hb2n : ¬ b0 = b := hb0
        rw [pathsOf_cons, if_pos rfl, if_neg (by tauto), pathsOf_cons, if_pos rfl]
      · rw [pathsOf_cons, if_neg hb2, ih, pathsOf_cons, if_neg hb2]

theorem foldl_maxKey_init_le (vs : List (Nat × List FileName)) (a : Nat) :
    a ≤ vs.foldl (fun m q => max m q.1) a := by
  induction vs generalizing a with
  | nil => exact le_refl a
  | cons q rest ih => exact le_trans (le_max_left a q.1) (ih _)

theorem mem_le_foldl_maxKey (vs : List (Nat × List FileName)) (a : Nat)
    (q : Nat × List FileName) (hq : q ∈ vs) :
    q.1 ≤ vs.foldl (fun m q => max m q.1) a := by
  induction vs generalizing a with
  | nil => cases hq
  | cons q0 rest ih =>
    cases hq with
    | head => exact le_trans (le_max_right a q.1) (foldl_maxKey_init_le rest _)
    | tail _ hmem => exact ih _ hmem

theorem foldl_maxKey_eq_or_mem (vs : List (Nat × List FileName)) (a : Nat) :
    vs.foldl (fun m q => max m q.1) a = a ∨
    ∃ q ∈ vs, vs.foldl (fun m q => max m q.1) a = q.1 := by
  induction vs generalizing a with
  | nil => left; rfl
  | cons q0 rest ih =>
    rcases ih (max a q0.1) with h1 | ⟨q, hq, heq⟩
    · rcases max_choice a q0.1 with hm | hm
      · left
        rw [List.foldl_cons, h1, hm]
      · right
        exact ⟨q0, List.mem_cons_self _ _, by rw [List.foldl_cons, h1, hm]⟩
    · right
      exact ⟨q, List.mem_cons_of_mem _ hq, by rw [List.foldl_cons, heq]⟩

theorem le_maxKey (vs : List (Nat × List FileName)) (q : Nat × List FileName)
    (hq : q ∈ vs) : q.1 ≤ maxKey vs :=
  mem_le_foldl_maxKey vs 0 q hq

theorem maxKey_mem (vs : List (Nat × List FileName)) (hne : vs ≠ []) :
    ∃ ps, (maxKey vs, ps) ∈ vs := by
  rcases foldl_maxKey_eq_or_mem vs 0 with h0 | ⟨q, hq, heq⟩
  · cases vs with
    | nil => exact absurd rfl hne
    | cons q0 rest =>
      have hle := le_maxKey (q0 :: rest) q0 (List.mem_cons_self _ _)
      have hmk : maxKey (q0 :: rest) = 0 := h0
      have hq1 : q0.1 = 0 := by omega
      refine ⟨q0.2, ?_⟩
      rw [hmk, ← hq1, Prod.mk.eta]
      exact List.mem_cons_self _ _
  · refine ⟨q.2, ?_⟩
    have hmk : maxKey vs = q.1 := heq
    rw [hmk, Prod.mk.eta]
    exact hq

theorem find?_keys_nodup (g : List (FileName × List (Nat × List FileName)))
    (hg : (g.map (fun e => e.1)).Nodup) (b : FileName)
    (vs : List (Nat × List FileName)) (hmem : (b, vs) ∈ g) :
    g.find? (fun e => e.1 == b) = some (b, vs) := by
  induction g with
  | nil => cases hmem
  | cons e rest ih =>
    obtain ⟨b0, vs0⟩ := e
    rcases List.mem_cons.mp hmem with heq | hmem2
    · rw [← heq]
      rw [List.find?_cons_of_pos _ (by simp)]
    · have hb0 : ¬ b0 = b := by
        intro h
        subst h
        rw [List.map_cons, List.nodup_cons] at hg
        exact hg.1 (List.mem_map.mpr ⟨(b0, vs), hmem2, rfl⟩)
      rw [List.find?_cons_of_neg _ (by simp [hb0])]
      rw [List.map_cons, List.nodup_cons] at hg
      exact ih hg.2 hmem2

theorem scan_invariant (folder : FileName) (L : List FileName) :
    ∀ (pre : List FileName) (g : List (FileName × List (Nat × List FileName))),
    (g.map (fun e => e.1)).Nodup →
    (∀ e ∈ g, ∀ q ∈ e.2, q.2 ≠ []) →
    (∀ b v p, p ∈ pathsOf g b v ↔
      ∃ f ∈ pre, parseRenderFilename f = some (b, v) ∧ p = joinPath folder f) →
    (((L.foldl (scanRenderFile folder) g).map (fun e => e.1)).Nodup ∧
     (∀ e ∈ L.foldl (scanRenderFile folder) g, ∀ q ∈ e.2, q.2 ≠ []) ∧
     (∀ b v p, p ∈ pathsOf (L.foldl (scanRenderFile folder) g) b v ↔
       ∃ f ∈ pre ++ L, parseRenderFilename f = some (b, v) ∧
         p = joinPath folder f)) := by
  induction L with
  | nil =>
    intro pre g h1 h2 h3
    refine ⟨h1, h2, ?_⟩
    intro b v p
    simpa using h3 b v p
  | cons f L ih =>
    intro pre g h1 h2 h3
    rw [List.foldl_cons]
    have hstep := scanRenderFile_eq folder g f
    cases hp : parseRenderFilename f with
    | none =>
      have hgstep : scanRenderFile folder g f = g := by rw [hstep, hp]
      rw [hgstep]
      have h3n : ∀ b v p, p ∈ pathsOf g b v ↔
          ∃ f2 ∈ pre ++ [f], parseRenderFilename f2 = some (b, v) ∧
            p = joinPath folder f2 := by
        intro b v p
        rw [h3 b v p]
        constructor
        · rintro ⟨f2, hf2, hpar, hjoin⟩
          exact ⟨f2, by simp [hf2], hpar, hjoin⟩
        · rintro ⟨f2, hf2, hpar, hjoin⟩
          rcases List.mem_append.mp hf2 with hin | hsing
          · exact ⟨f2, hin, hpar, hjoin⟩
          · rw [List.mem_singleton] at hsing
            subst hsing
            rw [hp] at hpar
            cases hpar
      have hres := ih (pre ++ [f]) g h1 h2 h3n
      simpa [List.append_assoc] using hres
    | some bv =>
      obtain ⟨b1, v1⟩ := bv
      have hgstep : scanRenderFile folder g f =
          insertRender g b1 v1 (joinPath folder f) := by rw [hstep, hp]
      rw [hgstep]
      have h1s : ((insertRender g b1 v1 (joinPath folder f)).map
          (fun e => e.1)).Nodup := keys_nodup_insertRender _ _ _ _ h1
      have h2s : ∀ e ∈ insertRender g b1 v1 (joinPath folder f),
          ∀ q ∈ e.2, q.2 ≠ [] :=
        fun e he q hq => insertRender_buckets_ne_nil g b1 v1 _ h2 e he q hq
      have h3s : ∀ b v p,
          p ∈ pathsOf (insertRender g b1 v1 (joinPath folder f)) b v ↔
          ∃ f2 ∈ pre ++ [f], parseRenderFilename f2 = some (b, v) ∧
            p = joinPath folder f2 := by
        intro b v p
        rw [pathsOf_insertRender g b1 v1 _ b v]
        by_cases hbv : b = b1 ∧ v = v1
        · rw [if_pos hbv]
          obtain ⟨hb, hv⟩ := hbv
          subst hb
          subst hv
          constructor
          · intro hmem
            rcases List.mem_append.mp hmem with hold | hnew
            · obtain ⟨f2, hf2, hpar, hjoin⟩ := (h3 _ _ p).mp hold
              exact ⟨f2, by simp [hf2], hpar, hjoin⟩
            · rw [List.mem_singleton] at hnew
              exact ⟨f, by simp, hp, hnew⟩
          · rintro ⟨f2, hf2, hpar, hjoin⟩
            rcases List.mem_append.mp hf2 with hin | hsing
            · exact List.mem_append.mpr
                (Or.inl ((h3 _ _ p).mpr ⟨f2, hin, hpar, hjoin⟩))
            · rw [List.mem_singleton] at hsing
              subst hsing
              exact List.mem_append.mpr (Or.inr (by simp [hjoin]))
        · rw [if_neg hbv, h3 b v p]
          constructor
          · rintro ⟨f2, hf2, hpar, hjoin⟩
            exact ⟨f2, by simp [hf2], hpar, hjoin⟩
          · rintro ⟨f2, hf2, hpar, hjoin⟩
            rcases List.mem_append.mp hf2 with hin | hsing
            · exact ⟨f2, hin, hpar, hjoin⟩
            · rw [List.mem_singleton] at hsing
              subst hsing
              rw [hp] at hpar
              injection hpar with hpair
              rw [Prod.mk.injEq] at hpair
              exact absurd ⟨hpair.1.symm, hpair.2.symm⟩ hbv
      have hres := ih (pre ++ [f])
        (insertRender g b1 v1 (joinPath folder f)) h1s h2s h3s
      simpa [List.append_assoc] using hres

/-! ## C1: the version resolver keeps exactly the latest version -/

/-- C1: a path is in the output of `get_latest_versioned_files` exactly when
it is the joined path of a listed file that matches the versioned-render
pattern and whose version is maximal among the listed files sharing its base
name — so all files of the maximum version are retained, every lower-version
file is excluded, and non-matching files are ignored; a listing with no
matching file (in particular an empty directory) yields `[]`, not an error
(the function is total). -/
theorem latest_version_selection (renders_folder : FileName)
    (listing : List FileName) :
    (∀ p, p ∈ get_latest_versioned_files renders_folder listing ↔
      ∃ f ∈ listing, ∃ b v, parseRenderFilename f = some (b, v) ∧
        p = joinPath renders_folder f ∧
        (∀ f2 ∈ listing, ∀ b2 v2, parseRenderFilename f2 = some (b2, v2) →
          b2 = b → v2 ≤ v)) ∧
    ((∀ f ∈ listing, parseRenderFilename f = none) →
      get_latest_versioned_files renders_folder listing = []) := by
  obtain ⟨hnodup, hne, hiff⟩ := scan_invariant renders_folder listing [] []
    (by simp) (by simp) (by intro b v p; simp [pathsOf_nil])
  have hiff2 : ∀ b v p,
      p ∈ pathsOf (listing.foldl (scanRenderFile renders_folder) []) b v ↔
      ∃ f ∈ listing, parseRenderFilename f = some (b, v) ∧
        p = joinPath renders_folder f := by
    intro b v p
    simpa using hiff b v p
  have hmain : ∀ p, p ∈ get_latest_versioned_files renders_folder listing ↔
      ∃ f ∈ listing, ∃ b v, parseRenderFilename f = some (b, v) ∧
        p = joinPath renders_folder f ∧
        (∀ f2 ∈ listing, ∀ b2 v2, parseRenderFilename f2 = some (b2, v2) →
          b2 = b → v2 ≤ v) := by
    intro p
    rw [show get_latest_versioned_files renders_folder listing =
        (listing.foldl (scanRenderFile renders_folder) []).flatMap
          (fun e => bucketOf e.2 (maxKey e.2)) from rfl]
    rw [List.mem_flatMap]
    constructor
    · rintro ⟨e, heG, hpe⟩
      obtain ⟨b, vs⟩ := e
      rcases hfind : vs.find? (fun q => q.1 == maxKey vs) with _ | q
      · rw [show bucketOf vs (maxKey vs) = [] by simp [bucketOf, hfind]] at hpe
        cases hpe
      · have hbq : bucketOf vs (maxKey vs) = q.2 := by simp [bucketOf, hfind]
        rw [show bucketOf (b, vs).2 (maxKey (b, vs).2) =
            bucketOf vs (maxKey vs) from rfl, hbq] at hpe
        have hq1 : q.1 = maxKey vs := by simpa using List.find?_some hfind
        have hqmem : q ∈ vs := List.mem_of_find?_eq_some hfind
        have hfindG : (listing.foldl (scanRenderFile renders_folder) []).find?
            (fun e => e.1 == b) = some (b, vs) :=
          find?_keys_nodup _ hnodup b vs heG
        have hpaths : pathsOf (listing.foldl (scanRenderFile renders_folder) [])
            b (maxKey vs) = bucketOf vs (maxKey vs) := by
          simp [pathsOf, hfindG]
        have hpmem : p ∈ pathsOf (listing.foldl (scanRenderFile renders_folder) [])
            b (maxKey vs) := by
          rw [hpaths, hbq]
          exact hpe
        obtain ⟨f, hfL, hpar, hjoin⟩ := (hiff2 b (maxKey vs) p).mp hpmem
        refine ⟨f, hfL, b, maxKey vs, hpar, hjoin, ?_⟩
        intro f2 hf2 b2 v2 hpar2 hbe
        rw [hbe] at hpar2
        have hpmem2 : joinPath renders_folder f2 ∈
            pathsOf (listing.foldl (scanRenderFile renders_folder) []) b v2 :=
          (hiff2 b v2 _).mpr ⟨f2, hf2, hpar2, rfl⟩
        have hpaths2 : pathsOf (listing.foldl (scanRenderFile renders_folder) [])
            b v2 = bucketOf vs v2 := by
          simp [pathsOf, hfindG]
        rw [hpaths2] at hpmem2
        rcases hfind2 : vs.find? (fun q => q.1 == v2) with _ | q2
        · rw [show bucketOf vs v2 = [] by simp [bucketOf, hfind2]] at hpmem2
          cases hpmem2
        · have hq21 : q2.1 = v2 := by simpa using List.find?_some hfind2
          have hq2mem := List.mem_of_find?_eq_some hfind2
          have hlast := le_maxKey vs q2 hq2mem
          omega
    · rintro ⟨f, hfL, b, v, hpar, hjoin, hmax⟩
      have hpmem : p ∈ pathsOf (listing.foldl (scanRenderFile renders_folder) [])
          b v := (hiff2 b v p).mpr ⟨f, hfL, hpar, hjoin⟩
      rcases hfindG : (listing.foldl (scanRenderFile renders_folder) []).find?
          (fun e => e.1 == b) with _ | e
      · rw [show pathsOf (listing.foldl (scanRenderFile renders_folder) []) b v =
            [] by simp [pathsOf, hfindG]] at hpmem
        cases hpmem
      · obtain ⟨b0, vs⟩ := e
        have hb0 : b0 = b := by simpa using List.find?_some hfindG
        subst hb0
        have heG : (b0, vs) ∈ listing.foldl (scanRenderFile renders_folder) [] :=
          List.mem_of_find?_eq_some hfindG
        have hpaths : pathsOf (listing.foldl (scanRenderFile renders_folder) [])
            b0 v = bucketOf vs v := by
          simp [pathsOf, hfindG]
        rw [hpaths] at hpmem
        rcases hfind2 : vs.find? (fun q => q.1 == v) with _ | q
        · rw [show bucketOf vs v = [] by simp [bucketOf, hfind2]] at hpmem
          cases hpmem
        · have hbq : bucketOf vs v = q.2 := by simp [bucketOf, hfind2]
          have hq1 : q.1 = v := by simpa using List.find?_some hfind2
          have hqmem : q ∈ vs := List.mem_of_find?_eq_some hfind2
          have hvs_ne : vs ≠ [] := by
            intro hnil
            rw [hnil] at hqmem
            cases hqmem
          obtain ⟨ps, hps⟩ := maxKey_mem vs hvs_ne
          have hiss : (vs.find? (fun q => q.1 == maxKey vs)).isSome = true :=
            List.find?_isSome.mpr ⟨(maxKey vs, ps), hps, by simp⟩
          obtain ⟨q3, hq3⟩ := Option.isSome_iff_exists.mp hiss
          have hq31 : q3.1 = maxKey vs := by simpa using List.find?_some hq3
          have hq3mem : q3 ∈ vs := List.mem_of_find?_eq_some hq3
          have hq3ne : q3.2 ≠ [] := hne (b0, vs) heG q3 hq3mem
          obtain ⟨p3, hp3⟩ := List.exists_mem_of_ne_nil q3.2 hq3ne
          have hpaths3 : pathsOf (listing.foldl (scanRenderFile renders_folder) [])
              b0 (maxKey vs) = bucketOf vs (maxKey vs) := by
            simp [pathsOf, hfindG]
          have hb3 : bucketOf vs (maxKey vs) = q3.2 := by simp [bucketOf, hq3]
          have hp3mem : p3 ∈
              pathsOf (listing.foldl (scanRenderFile renders_folder) [])
                b0 (maxKey vs) := by
            rw [hpaths3, hb3]
            exact hp3
          obtain ⟨f3, hf3L, hpar3, _⟩ := (hiff2 b0 (maxKey vs) p3).mp hp3mem
          have hle1 : maxKey vs ≤ v := hmax f3 hf3L b0 (maxKey vs) hpar3 rfl
          have hle2 : v ≤ maxKey vs := by
            have := le_maxKey vs q hqmem
            omega
          have hveq : v = maxKey vs := le_antisymm hle2 hle1
          refine ⟨(b0, vs), heG, ?_⟩
          show p ∈ bucketOf vs (maxKey vs)
          rw [← hveq, hbq]
          rw [hbq] at hpmem
          exact hpmem
  refine ⟨hmain, ?_⟩
  intro hallnone
  rw [List.eq_nil_iff_forall_not_mem]
  intro p hp
  obtain ⟨f, hfL, b, v, hpar, _, _⟩ := (hmain p).mp hp
  rw [hallnone f hfL] at hpar
  cases hpar

theorem latest_version_selection_witness :
    (∀ p, p ∈ get_latest_versioned_files ("renders".toList)
        ["shotA.v001.0001.png".toList, "shotA.v002.0001.png".toList] ↔
      ∃ f ∈ ["shotA.v001.0001.png".toList, "shotA.v002.0001.png".toList],
        ∃ b v, parseRenderFilename f = some (b, v) ∧
        p = joinPath ("renders".toList) f ∧
        (∀ f2 ∈ ["shotA.v001.0001.png".toList, "shotA.v002.0001.png".toList],
          ∀ b2 v2, parseRenderFilename f2 = some (b2, v2) → b2 = b → v2 ≤ v)) ∧
    ((∀ f ∈ ["shotA.v001.0001.png".toList, "shotA.v002.0001.png".toList],
        parseRenderFilename f = none) →
      get_latest_versioned_files ("renders".toList)
        ["shotA.v001.0001.png".toList, "shotA.v002.0001.png".toList] = []) :=
  latest_version_selection ("renders".toList)
    ["shotA.v001.0001.png".toList, "shotA.v002.0001.png".toList]

/-! ## C7: the walker's per-directory CMP-then-LGT fallback -/

theorem foldl_append_eq_flatMap (f : FileName → List (FileName × FileName))
    (l : List FileName) (acc : List (FileName × FileName)) :
    l.foldl (fun acc root => acc ++ f root) acc = acc ++ l.flatMap f := by
  induction l generalizing acc with
  | nil => simp
  | cons x t ih =>
    rw [List.foldl_cons, ih, List.flatMap_cons, List.append_assoc]

/-- C7: the walker output is the concatenation of independent per-directory
contributions; a visited `CMP/work` directory whose renders resolve to files
contributes exactly those files tagged `"CMP"` (the contribution does not
consult the lighting directory); when the composite attempt yields nothing
(directory absent or resolver empty) and the substituted `LGT/work/renders`
directory yields files, the contribution is exactly those files tagged
`"LGT"`; and no directory ever contributes both tags. -/
theorem walker_fallback (fs : FS) (roots : List FileName) :
    gather_all_latest_images fs roots = roots.flatMap (shotContribution fs) ∧
    (∀ root, cmpWork.isSuffixOf root = true →
      fs.isDir (joinPath root rendersName) = true →
      get_latest_versioned_files (joinPath root rendersName)
        (fs.listing (joinPath root rendersName)) ≠ [] →
      shotContribution fs root =
        (get_latest_versioned_files (joinPath root rendersName)
          (fs.listing (joinPath root rendersName))).map
            (fun img => (img, cmpTag))) ∧
    (∀ root, cmpWork.isSuffixOf root = true →
      ¬ (fs.isDir (joinPath root rendersName) = true ∧
         get_latest_versioned_files (joinPath root rendersName)
           (fs.listing (joinPath root rendersName)) ≠ []) →
      fs.isDir (joinPath (replaceAll cmpWork lgtWork root) rendersName) = true →
      get_latest_versioned_files
          (joinPath (replaceAll cmpWork lgtWork root) rendersName)
          (fs.listing (joinPath (replaceAll cmpWork lgtWork root) rendersName))
        ≠ [] →
      shotContribution fs root =
        (get_latest_versioned_files
            (joinPath (replaceAll cmpWork lgtWork root) rendersName)
            (fs.listing (joinPath (replaceAll cmpWork lgtWork root) rendersName))).map
          (fun img => (img, lgtTag))) ∧
    (∀ root, (∀ x ∈ shotContribution fs root, x.2 = cmpTag) ∨
             (∀ x ∈ shotContribution fs root, x.2 = lgtTag)) := by
  refine ⟨foldl_append_eq_flatMap (shotContribution fs) roots [], ?_, ?_, ?_⟩
  · intro root hsuf hdir hne
    unfold shotContribution
    rw [if_pos hsuf, if_pos ⟨hdir, hne⟩]
  · intro root hsuf hcmpfail hdir hne
    unfold shotContribution
    rw [if_pos hsuf, if_neg hcmpfail, if_pos ⟨hdir, hne⟩]
  · intro root
    unfold shotContribution
    by_cases hsuf : cmpWork.isSuffixOf root = true
    · rw [if_pos hsuf]
      by_cases hcmp : fs.isDir (joinPath root rendersName) = true ∧
          get_latest_versioned_files (joinPath root rendersName)
            (fs.listing (joinPath root rendersName)) ≠ []
      · rw [if_pos hcmp]
        left
        intro x hx
        obtain ⟨img, _, hximg⟩ := List.mem_map.mp hx
        rw [← hximg]
      · rw [if_neg hcmp]
        by_cases hlgt : fs.isDir
            (joinPath (replaceAll cmpWork lgtWork root) rendersName) = true ∧
            get_latest_versioned_files
              (joinPath (replaceAll cmpWork lgtWork root) rendersName)
              (fs.listing (joinPath (replaceAll cmpWork lgtWork root) rendersName))
              ≠ []
        · rw [if_pos hlgt]
          right
          intro x hx
          obtain ⟨img, _, hximg⟩ := List.mem_map.mp hx
          rw [← hximg]
        · rw [if_neg hlgt]
          left
          intro x hx
          cases hx
    · rw [if_neg hsuf]
      left
      intro x hx
      cases hx

theorem walker_fallback_witness :
    (gather_all_latest_images ⟨fun _ => false, fun _ => []⟩ [cmpWork] =
      [cmpWork].flatMap (shotContribution ⟨fun _ => false, fun _ => []⟩)) ∧
    (∀ root, cmpWork.isSuffixOf root = true →
      FS.isDir ⟨fun _ => false, fun _ => []⟩ (joinPath root rendersName) = true →
      get_latest_versioned_files (joinPath root rendersName)
        (FS.listing ⟨fun _ => false, fun _ => []⟩ (joinPath root rendersName))
        ≠ [] →
      shotContribution ⟨fun _ => false, fun _ => []⟩ root =
        (get_latest_versioned_files (joinPath root rendersName)
          (FS.listing ⟨fun _ => false, fun _ => []⟩
            (joinPath root rendersName))).map
          (fun img => (img, cmpTag))) ∧
    (∀ root, cmpWork.isSuffixOf root = true →
      ¬ (FS.isDir ⟨fun _ => false, fun _ => []⟩ (joinPath root rendersName) =
           true ∧
         get_latest_versioned_files (joinPath root rendersName)
           (FS.listing ⟨fun _ => false, fun _ => []⟩ (joinPath root rendersName))
           ≠ []) →
      FS.isDir ⟨fun _ => false, fun _ => []⟩
        (joinPath (replaceAll cmpWork lgtWork root) rendersName) = true →
      get_latest_versioned_files
          (joinPath (replaceAll cmpWork lgtWork root) rendersName)
          (FS.listing ⟨fun _ => false, fun _ => []⟩
            (joinPath (replaceAll cmpWork lgtWork root) rendersName)) ≠ [] →
      shotContribution ⟨fun _ => false, fun _ => []⟩ root =
        (get_latest_versioned_files
            (joinPath (replaceAll cmpWork lgtWork root) rendersName)
            (FS.listing ⟨fun _ => false, fun _ => []⟩
              (joinPath (replaceAll cmpWork lgtWork root) rendersName))).map
          (fun img => (img, lgtTag))) ∧
    (∀ root,
      (∀ x ∈ shotContribution ⟨fun _ => false, fun _ => []⟩ root, x.2 = cmpTag) ∨
      (∀ x ∈ shotContribution ⟨fun _ => false, fun _ => []⟩ root, x.2 = lgtTag)) :=
  walker_fallback ⟨fun _ => false, fun _ => []⟩ [cmpWork]

/-! ## Lemmas for the output archiver -/

theorem versionStep_init_le (folder : FileName) (files : List FileName) :
    ∀ a, a ≤ files.foldl
      (fun v f =>
        match archMatch folder f with
        | some k => max v (k + 1)
        | none => v) a := by
  induction files with
  | nil => intro a; exact le_refl a
  | cons g t ih =>
    intro a
    rw [List.foldl_cons]
    refine le_trans ?_ (ih _)
    cases hm : archMatch folder g with
    | some k => simp [hm, le_max_left]
    | none => simp [hm]

theorem versionStep_ge (folder : FileName) (files : List FileName) :
    ∀ a, ∀ f ∈ files, ∀ k, archMatch folder f = some k →
      k + 1 ≤ files.foldl
        (fun v f =>
          match archMatch folder f with
          | some k => max v (k + 1)
          | none => v) a := by
  induction files with
  | nil => intro a f hf; cases hf
  | cons g t ih =>
    intro a f hf k hk
    rw [List.foldl_cons]
    rcases List.mem_cons.mp hf with rfl | hft
    · refine le_trans ?_ (versionStep_init_le folder t _)
      rw [hk]
      exact le_max_right a (k + 1)
    · exact ih _ f hft k hk

theorem versionStep_attained (folder : FileName) (files : List FileName) :
    ∀ a, files.foldl
        (fun v f =>
          match archMatch folder f with
          | some k => max v (k + 1)
          | none => v) a = a ∨
      ∃ f ∈ files, ∃ k, archMatch folder f = some k ∧
        files.foldl
          (fun v f =>
            match archMatch folder f with
            | some k => max v (k + 1)
            | none => v) a = k + 1 := by
  induction files with
  | nil => intro a; left; rfl
  | cons g t ih =>
    intro a
    rw [List.foldl_cons]
    cases hm : archMatch folder g with
    | none =>
      rcases ih a with h1 | ⟨f, hf, k, hk, heq⟩
      · left; exact h1
      · right; exact ⟨f, List.mem_cons_of_mem _ hf, k, hk, heq⟩
    | some k0 =>
      rcases ih (max a (k0 + 1)) with h1 | ⟨f, hf, k, hk, heq⟩
      · rcases max_choice a (k0 + 1) with hc | hc
        · left; exact h1.trans hc
        · right
          exact ⟨g, List.mem_cons_self _ _, k0, hm, h1.trans hc⟩
      · right; exact ⟨f, List.mem_cons_of_mem _ hf, k, hk, heq⟩

theorem versionStep_all_none (folder : FileName) (files : List FileName)
    (hall : ∀ f ∈ files, archMatch folder f = none) :
    ∀ a, files.foldl
      (fun v f =>
        match archMatch folder f with
        | some k => max v (k + 1)
        | none => v) a = a := by
  induction files with
  | nil => intro a; rfl
  | cons g t ih =>
    intro a
    rw [List.foldl_cons]
    rw [show (match archMatch folder g with
        | some k => max a (k + 1)
        | none => a) = a by rw [hall g (List.mem_cons_self _ _)]]
    exact ih (fun f hf => hall f (List.mem_cons_of_mem _ hf)) a

theorem moveFold_spec (folder : FileName) (version : Nat) (it : List FileName) :
    ∀ (m o : List FileName), m.Nodup →
    ((it.foldl (moveStep folder version) (m, o)).1.Nodup ∧
     (∀ f, f ∈ (it.foldl (moveStep folder version) (m, o)).1 ↔
        f ∈ m ∧ ¬ (f ∈ it ∧ ∃ k, archMatch folder f = some k ∧ k < version)) ∧
     (∀ g2, g2 ∈ (it.foldl (moveStep folder version) (m, o)).2 ↔
        g2 ∈ o ∨ (g2 ∈ it ∧ ∃ k, archMatch folder g2 = some k ∧ k < version)) ∧
     (o.Nodup → (it.foldl (moveStep folder version) (m, o)).2.Nodup)) := by
  induction it with
  | nil =>
    intro m o hm
    refine ⟨hm, ?_, ?_, fun h => h⟩
    · intro f; simp
    · intro g2; simp
  | cons g t ih =>
    intro m o hm
    rw [List.foldl_cons]
    cases hmg : archMatch folder g with
    | none =>
      have hst : moveStep folder version (m, o) g = (m, o) := by
        simp [moveStep, hmg]
      rw [hst]
      obtain ⟨ih1, ih2, ih3, ih4⟩ := ih m o hm
      refine ⟨ih1, ?_, ?_, ih4⟩
      · intro f
        rw [ih2 f]
        constructor
        · rintro ⟨hfm, hnot⟩
          refine ⟨hfm, ?_⟩
          rintro ⟨hfit, k, hk, hkv⟩
          rcases List.mem_cons.mp hfit with rfl | hft
          · rw [hmg] at hk; cases hk
          · exact hnot ⟨hft, k, hk, hkv⟩
        · rintro ⟨hfm, hnot⟩
          exact ⟨hfm, fun hc =>
            hnot ⟨List.mem_cons_of_mem _ hc.1, hc.2⟩⟩
      · intro g2
        rw [ih3 g2]
        constructor
        · rintro (ho | ⟨hgt, k, hk, hkv⟩)
          · exact Or.inl ho
          · exact Or.inr ⟨List.mem_cons_of_mem _ hgt, k, hk, hkv⟩
        · rintro (ho | ⟨hgit, k, hk, hkv⟩)
          · exact Or.inl ho
          · rcases List.mem_cons.mp hgit with rfl | hgt
            · rw [hmg] at hk; cases hk
            · exact Or.inr ⟨hgt, k, hk, hkv⟩
    | some k0 =>
      by_cases hkv0 : k0 < version
      · have hst : moveStep folder version (m, o) g =
            (m.erase g, g :: o.filter (fun g2 => g2 != g)) := by
          simp [moveStep, hmg, hkv0]
        rw [hst]
        obtain ⟨ih1, ih2, ih3, ih4⟩ :=
          ih (m.erase g) (g :: o.filter (fun g2 => g2 != g)) (hm.erase g)
        refine ⟨ih1, ?_, ?_, ?_⟩
        · intro f
          rw [ih2 f, List.Nodup.mem_erase_iff hm]
          constructor
          · rintro ⟨⟨hfg, hfm⟩, hnot⟩
            refine ⟨hfm, ?_⟩
            rintro ⟨hfit, k, hk, hkv⟩
            rcases List.mem_cons.mp hfit with rfl | hft
            · exact hfg rfl
            · exact hnot ⟨hft, k, hk, hkv⟩
          · rintro ⟨hfm, hnot⟩
            by_cases hfg : f = g
            · subst hfg
              exact absurd ⟨List.mem_cons_self _ _, k0, hmg, hkv0⟩ hnot
            · exact ⟨⟨hfg, hfm⟩, fun hc =>
                hnot ⟨List.mem_cons_of_mem _ hc.1, hc.2⟩⟩
        · intro g2
          rw [ih3 g2]
          constructor
          · rintro (ho1 | ⟨hgt, k, hk, hkv⟩)
            · rcases List.mem_cons.mp ho1 with rfl | hofil
              · exact Or.inr ⟨List.mem_cons_self _ _, k0, hmg, hkv0⟩
              · exact Or.inl (List.mem_filter.mp hofil).1
            · exact Or.inr ⟨List.mem_cons_of_mem _ hgt, k, hk, hkv⟩
          · rintro (ho | ⟨hgit, k, hk, hkv⟩)
            · by_cases hg2 : g2 = g
              · subst hg2
                exact Or.inl (List.mem_cons_self _ _)
              · refine Or.inl (List.mem_cons_of_mem _ ?_)
                rw [List.mem_filter]
                exact ⟨ho, by simp [hg2]⟩
            · rcases List.mem_cons.mp hgit with rfl | hgt
              · exact Or.inl (List.mem_cons_self _ _)
              · exact Or.inr ⟨hgt, k, hk, hkv⟩
        · intro ho
          refine ih4 ?_
          rw [List.nodup_cons]
          refine ⟨?_, ho.filter _⟩
          intro hgf
          have hne2 := (List.mem_filter.mp hgf).2
          simp at hne2
      · have hst : moveStep folder version (m, o) g = (m, o) := by
          simp [moveStep, hmg, hkv0]
        rw [hst]
        obtain ⟨ih1, ih2, ih3, ih4⟩ := ih m o hm
        refine ⟨ih1, ?_, ?_, ih4⟩
        · intro f
          rw [ih2 f]
          constructor
          · rintro ⟨hfm, hnot⟩
            refine ⟨hfm, ?_⟩
            rintro ⟨hfit, k, hk, hkv⟩
            rcases List.mem_cons.mp hfit with rfl | hft
            · rw [hmg] at hk
              injection hk with hke
              subst hke
              exact hkv0 hkv
            · exact hnot ⟨hft, k, hk, hkv⟩
          · rintro ⟨hfm, hnot⟩
            exact ⟨hfm, fun hc =>
              hnot ⟨List.mem_cons_of_mem _ hc.1, hc.2⟩⟩
        · intro g2
          rw [ih3 g2]
          constructor
          · rintro (ho1 | ⟨hgt, k, hk, hkv⟩)
            · exact Or.inl ho1
            · exact Or.inr ⟨List.mem_cons_of_mem _ hgt, k, hk, hkv⟩
          · rintro (ho1 | ⟨hgit, k, hk, hkv⟩)
            · exact Or.inl ho1
            · rcases List.mem_cons.mp hgit with rfl | hgt
              · rw [hmg] at hk
                injection hk with hke
                subst hke
                exact absurd hkv hkv0
              · exact Or.inr ⟨hgt, k, hk, hkv⟩

/-! ## C8: the output archiver -/

/-- C8: the next output version is one more than the maximum version embedded
in existing `Contact-Sheet_<folder>(_labeled)?.<version>.jpg` names (1 when
none match): it is at least 1, equal to 1 when nothing matches, strictly
above every embedded version, and attained by some file unless it is 1.
Afterwards the main directory holds exactly the non-matching files (every
file with an embedded version below the new one — that is, every matching
file — has been moved), every matching file is in `old`, which also keeps
its other previous contents, and a same-named collision in `old` is resolved
by overwrite (no duplicate arises), never reported as an error (the archiver
is a total function). -/
theorem archiver_spec (folder : FileName) (mainFiles oldFiles : List FileName)
    (hm : mainFiles.Nodup) :
    1 ≤ (runArchiver folder mainFiles oldFiles).1 ∧
    ((∀ f ∈ mainFiles, archMatch folder f = none) →
      (runArchiver folder mainFiles oldFiles).1 = 1) ∧
    (∀ f ∈ mainFiles, ∀ k, archMatch folder f = some k →
      k < (runArchiver folder mainFiles oldFiles).1) ∧
    ((runArchiver folder mainFiles oldFiles).1 = 1 ∨
      ∃ f ∈ mainFiles, archMatch folder f =
        some ((runArchiver folder mainFiles oldFiles).1 - 1)) ∧
    (∀ f, f ∈ (runArchiver folder mainFiles oldFiles).2.1 ↔
      f ∈ mainFiles ∧ archMatch folder f = none) ∧
    (∀ g2, g2 ∈ (runArchiver folder mainFiles oldFiles).2.2 ↔
      g2 ∈ oldFiles ∨ (g2 ∈ mainFiles ∧ archMatch folder g2 ≠ none)) ∧
    (oldFiles.Nodup → (runArchiver folder mainFiles oldFiles).2.2.Nodup) := by
  have hv1 : 1 ≤ computeNextVersion folder mainFiles :=
    versionStep_init_le folder mainFiles 1
  have hvmax : ∀ f ∈ mainFiles, ∀ k, archMatch folder f = some k →
      k + 1 ≤ computeNextVersion folder mainFiles :=
    fun f hf k hk => versionStep_ge folder mainFiles 1 f hf k hk
  obtain ⟨hn1, hmem1, hmem2, hnd⟩ :=
    moveFold_spec folder (computeNextVersion folder mainFiles) mainFiles
      mainFiles oldFiles hm
  have hmoves : ∀ f, f ∈ mainFiles →
      ((∃ k, archMatch folder f = some k ∧
          k < computeNextVersion folder mainFiles) ↔
        archMatch folder f ≠ none) := by
    intro f hf
    constructor
    · rintro ⟨k, hk, _⟩ hnone
      rw [hnone] at hk
      cases hk
    · intro hne
      cases hk : archMatch folder f with
      | none => exact absurd hk hne
      | some k =>
        have := hvmax f hf k hk
        exact ⟨k, rfl, by omega⟩
  refine ⟨hv1, ?_, ?_, ?_, ?_, ?_, hnd⟩
  · intro hall
    exact versionStep_all_none folder mainFiles hall 1
  · intro f hf k hk
    have h2 := hvmax f hf k hk
    have hrv : (runArchiver folder mainFiles oldFiles).1 =
        computeNextVersion folder mainFiles := rfl
    omega
  · rcases versionStep_attained folder mainFiles 1 with h1 | ⟨f, hf, k, hk, heq⟩
    · left; exact h1
    · right
      refine ⟨f, hf, ?_⟩
      rw [hk]
      congr 1
      show k = computeNextVersion folder mainFiles - 1
      rw [show computeNextVersion folder mainFiles = k + 1 from heq]
      omega
  · intro f
    rw [show (runArchiver folder mainFiles oldFiles).2.1 =
        (mainFiles.foldl (moveStep folder (computeNextVersion folder mainFiles))
          (mainFiles, oldFiles)).1 from rfl]
    rw [hmem1 f]
    constructor
    · rintro ⟨hfm, hnot⟩
      refine ⟨hfm, ?_⟩
      cases hk : archMatch folder f with
      | none => rfl
      | some k =>
        exact absurd ⟨hfm, (hmoves f hfm).mpr (by rw [hk]; simp)⟩ hnot
    · rintro ⟨hfm, hnone⟩
      refine ⟨hfm, ?_⟩
      rintro ⟨_, k, hk, _⟩
      rw [hnone] at hk
      cases hk
  · intro g2
    rw [show (runArchiver folder mainFiles oldFiles).2.2 =
        (mainFiles.foldl (moveStep folder (computeNextVersion folder mainFiles))
          (mainFiles, oldFiles)).2 from rfl]
    rw [hmem2 g2]
    constructor
    · rintro (ho | ⟨hgm, k, hk, _⟩)
      · exact Or.inl ho
      · exact Or.inr ⟨hgm, by rw [hk]; simp⟩
    · rintro (ho | ⟨hgm, hne⟩)
      · exact Or.inl ho
      · exact Or.inr ⟨hgm, (hmoves g2 hgm).mpr hne⟩

theorem archiver_spec_witness :
    (["Contact-Sheet_seq.001.jpg".toList, "notes.txt".toList] :
      List FileName).Nodup ∧
    (1 ≤ (runArchiver ("seq".toList)
        ["Contact-Sheet_seq.001.jpg".toList, "notes.txt".toList] []).1 ∧
     ((∀ f ∈ (["Contact-Sheet_seq.001.jpg".toList, "notes.txt".toList] :
          List FileName), archMatch ("seq".toList) f = none) →
       (runArchiver ("seq".toList)
         ["Contact-Sheet_seq.001.jpg".toList, "notes.txt".toList] []).1 = 1) ∧
     (∀ f ∈ (["Contact-Sheet_seq.001.jpg".toList, "notes.txt".toList] :
        List FileName), ∀ k, archMatch ("seq".toList) f = some k →
       k < (runArchiver ("seq".toList)
         ["Contact-Sheet_seq.001.jpg".toList, "notes.txt".toList] []).1) ∧
     ((runArchiver ("seq".toList)
         ["Contact-Sheet_seq.001.jpg".toList, "notes.txt".toList] []).1 = 1 ∨
       ∃ f ∈ (["Contact-Sheet_seq.001.jpg".toList, "notes.txt".toList] :
          List FileName), archMatch ("seq".toList) f =
         some ((runArchiver ("seq".toList)
           ["Contact-Sheet_seq.001.jpg".toList, "notes.txt".toList] []).1 - 1)) ∧
     (∀ f, f ∈ (runArchiver ("seq".toList)
         ["Contact-Sheet_seq.001.jpg".toList, "notes.txt".toList] []).2.1 ↔
       f ∈ (["Contact-Sheet_seq.001.jpg".toList, "notes.txt".toList] :
          List FileName) ∧ archMatch ("seq".toList) f = none) ∧
     (∀ g2, g2 ∈ (runArchiver ("seq".toList)
         ["Contact-Sheet_seq.001.jpg".toList, "notes.txt".toList] []).2.2 ↔
       g2 ∈ ([] : List FileName) ∨
         (g2 ∈ (["Contact-Sheet_seq.001.jpg".toList, "notes.txt".toList] :
            List FileName) ∧ archMatch ("seq".toList) g2 ≠ none)) ∧
     (([] : List FileName).Nodup → (runArchiver ("seq".toList)
         ["Contact-Sheet_seq.001.jpg".toList, "notes.txt".toList] []).2.2.Nodup)) :=
  ⟨by decide,
   archiver_spec ("seq".toList)
     ["Contact-Sheet_seq.001.jpg".toList, "notes.txt".toList] [] (by decide)⟩

/-! ## Lemmas for the node-graph exporter -/

theorem digitsToNat_foldl_shift (l : FileName) :
    ∀ a, l.foldl (fun a c => a * 10 + digitVal c) a =
      a * 10 ^ l.length + digitsToNat l := by
  induction l with
  | nil =>
    intro a
    simp [digitsToNat]
  | cons c t ih =>
    intro a
    rw [List.foldl_cons, ih]
    rw [show digitsToNat (c :: t) = digitVal c * 10 ^ t.length + digitsToNat t from by
      show (c :: t).foldl _ 0 = _
      rw [List.foldl_cons]
      have h2 := ih (0 * 10 + digitVal c)
      simpa using h2]
    rw [List.length_cons, pow_succ]
    ring

theorem digitVal_digitChar (d : Nat) (h : d < 10) :
    digitVal (digitChar d) = d := by
  interval_cases d <;> rfl

theorem digitsToNat_natDigitsGo (n : Nat) (acc : FileName) :
    digitsToNat (natDigitsGo n acc) = n * 10 ^ acc.length + digitsToNat acc := by
  induction n, acc using natDigitsGo.induct with
  | case1 acc =>
    rw [natDigitsGo, if_pos rfl]
    simp
  | case2 n acc h ih =>
    rw [natDigitsGo, if_neg h, ih]
    rw [show digitsToNat (digitChar (n % 10) :: acc) =
        digitVal (digitChar (n % 10)) * 10 ^ acc.length + digitsToNat acc from by
      show (digitChar (n % 10) :: acc).foldl _ 0 = _
      rw [List.foldl_cons]
      have h2 := digitsToNat_foldl_shift acc (0 * 10 + digitVal (digitChar (n % 10)))
      simpa using h2]
    rw [digitVal_digitChar (n % 10) (Nat.mod_lt _ (by omega)), List.length_cons,
      pow_succ]
    have hdm : n / 10 * 10 + n % 10 = n := Nat.div_add_mod' n 10
    conv_rhs => rw [← hdm]
    ring

theorem digitsToNat_natDigits (n : Nat) : digitsToNat (natDigits n) = n := by
  unfold natDigits
  by_cases h : n = 0
  · rw [if_pos h, h]
    rfl
  · rw [if_neg h]
    have h2 := digitsToNat_natDigitsGo n []
    simpa [digitsToNat] using h2

theorem natDigits_inj : Function.Injective natDigits := by
  intro a b h
  have h2 := congrArg digitsToNat h
  rwa [digitsToNat_natDigits, digitsToNat_natDigits] at h2

theorem readName_inj : Function.Injective readName := by
  intro a b h
  exact natDigits_inj (List.append_cancel_left h)

theorem dotName_inj : Function.Injective dotName := by
  intro a b h
  exact natDigits_inj (List.append_cancel_left h)

theorem enumFrom_getLast? (l : List (FileName × FileName)) :
    ∀ n, l ≠ [] →
      ∃ x, (List.enumFrom n l).getLast? = some (n + l.length - 1, x) := by
  induction l with
  | nil => intro n h; exact absurd rfl h
  | cons a t ih =>
    intro n h
    cases t with
    | nil =>
      refine ⟨a, ?_⟩
      show ([(n, a)]).getLast? = some (n + 1 - 1, a)
      rw [List.getLast?_singleton]
      simp
    | cons y t2 =>
      obtain ⟨x, hx⟩ := ih (n + 1) (by simp)
      refine ⟨x, ?_⟩
      have hlen : (n + 1) + (y :: t2).length - 1 = n + (a :: y :: t2).length - 1 := by
        simp
        omega
      rw [← hlen]
      show ((n, a) :: List.enumFrom (n + 1) (y :: t2)).getLast? = _
      rw [show List.enumFrom (n + 1) (y :: t2) =
          (n + 1, y) :: List.enumFrom (n + 2) t2 from rfl]
      rw [List.getLast?_cons_cons]
      exact hx

/-! ## C9: the node-graph exporter's deterministic layout -/

/-- C9: for a nonempty sorted image list the export block emits one read node
per image, named `Read<n>` with `n = index + 1` (the names are pairwise
distinct), at `x = index * 180` and `y = 0` for the `"LGT"` tag, `y = 200`
otherwise; one dot node per read at `(x + 34, 400)`, strictly below its read
node; and a single summary node with `rows = columns = ceil(sqrt N)`,
positioned at the horizontal midpoint of the first (`0`) and last
(`(N-1)*180`) read x-positions and 20 below the dot row. -/
theorem nuke_export_layout (imgs : List (FileName × FileName)) (h : imgs ≠ []) :
    (nukeReadNodes imgs).length = imgs.length ∧
    (nukeDotNodes imgs).length = imgs.length ∧
    (∀ i pd, imgs.get? i = some pd →
      (nukeReadNodes imgs).get? i = some
        { name := readName (i + 1),
          file := replaceAll ['\\'] ['/'] pd.1,
          xpos := i * 180,
          ypos := if pd.2 = lgtTag then 0 else 200 }) ∧
    ((nukeReadNodes imgs).map (fun r => r.name)).Nodup ∧
    (∀ i pd, imgs.get? i = some pd →
      (nukeDotNodes imgs).get? i = some
        { name := dotName (i + 1), xpos := i * 180 + 34, ypos := 400 } ∧
      (if pd.2 = lgtTag then 0 else 200) < 400) ∧
    (nukeContactSheetNode imgs).rows = ceilSqrt imgs.length ∧
    (nukeContactSheetNode imgs).columns = ceilSqrt imgs.length ∧
    (nukeContactSheetNode imgs).inputs = imgs.length ∧
    (nukeContactSheetNode imgs).xpos = ((imgs.length - 1) * 180) / 2 ∧
    (nukeContactSheetNode imgs).ypos = 420 := by
  refine ⟨?_, ?_, ?_, ?_, ?_, rfl, rfl, rfl, ?_, rfl⟩
  · unfold nukeReadNodes
    rw [List.length_map, List.enum_length]
  · unfold nukeDotNodes
    rw [List.length_map, List.enum_length]
  · intro i pd hpd
    unfold nukeReadNodes
    rw [List.get?_map, List.get?_enum, hpd]
    simp
  · have h1 : (nukeReadNodes imgs).map (fun r => r.name) =
        (imgs.enum.map Prod.fst).map (fun i => readName (i + 1)) := by
      unfold nukeReadNodes
      rw [List.map_map, List.map_map]
      rfl
    rw [h1, List.enum_map_fst]
    refine List.Nodup.map ?_ (List.nodup_range _)
    intro a b hab
    have h2 := readName_inj hab
    omega
  · intro i pd hpd
    constructor
    · unfold nukeDotNodes
      rw [List.get?_map, List.get?_enum, hpd]
      simp
    · by_cases hd : pd.2 = lgtTag <;> simp [hd]
  · cases imgs with
    | nil => exact absurd rfl h
    | cons a t =>
      have hne : ((List.enum (a :: t)).map (fun ipd => 0 + ipd.1 * 180)) ≠ [] := by
        simp
      have hx : (nukeContactSheetNode (a :: t)).xpos =
          (if ((List.enum (a :: t)).map (fun ipd => 0 + ipd.1 * 180)) ≠ [] then
            (((List.enum (a :: t)).map (fun ipd => 0 + ipd.1 * 180)).headD 0 +
             ((List.enum (a :: t)).map (fun ipd => 0 + ipd.1 * 180)).getLastD 0) / 2
          else 0) := rfl
      have hhead : ((List.enum (a :: t)).map (fun ipd => 0 + ipd.1 * 180)).headD 0
          = 0 := rfl
      have hlast : ((List.enum (a :: t)).map (fun ipd => 0 + ipd.1 * 180)).getLastD 0
          = ((a :: t).length - 1) * 180 := by
        rw [List.getLastD_eq_getLast?, List.getLast?_map]
        obtain ⟨z, hz⟩ := enumFrom_getLast? (a :: t) 0 (by simp)
        rw [show List.enum (a :: t) = List.enumFrom 0 (a :: t) from rfl, hz]
        simp
      rw [hx, if_pos hne, hhead, hlast]
      simp

theorem nuke_export_layout_witness :
    ([("sh010_CMP.v001.0001.png".toList, cmpTag)] :
      List (FileName × FileName)) ≠ [] ∧
    ((nukeReadNodes [("sh010_CMP.v001.0001.png".toList, cmpTag)]).length =
       ([("sh010_CMP.v001.0001.png".toList, cmpTag)] :
         List (FileName × FileName)).length ∧
     (nukeDotNodes [("sh010_CMP.v001.0001.png".toList, cmpTag)]).length =
       ([("sh010_CMP.v001.0001.png".toList, cmpTag)] :
         List (FileName × FileName)).length ∧
     (∀ i pd, ([("sh010_CMP.v001.0001.png".toList, cmpTag)] :
         List (FileName × FileName)).get? i = some pd →
       (nukeReadNodes [("sh010_CMP.v001.0001.png".toList, cmpTag)]).get? i = some
         { name := readName (i + 1),
           file := replaceAll ['\\'] ['/'] pd.1,
           xpos := i * 180,
           ypos := if pd.2 = lgtTag then 0 else 200 }) ∧
     ((nukeReadNodes [("sh010_CMP.v001.0001.png".toList, cmpTag)]).map
        (fun r => r.name)).Nodup ∧
     (∀ i pd, ([("sh010_CMP.v001.0001.png".toList, cmpTag)] :
         List (FileName × FileName)).get? i = some pd →
       (nukeDotNodes [("sh010_CMP.v001.0001.png".toList, cmpTag)]).get? i = some
         { name := dotName (i + 1), xpos := i * 180 + 34, ypos := 400 } ∧
       (if pd.2 = lgtTag then 0 else 200) < 400) ∧
     (nukeContactSheetNode [("sh010_CMP.v001.0001.png".toList, cmpTag)]).rows =
       ceilSqrt ([("sh010_CMP.v001.0001.png".toList, cmpTag)] :
         List (FileName × FileName)).length ∧
     (nukeContactSheetNode [("sh010_CMP.v001.0001.png".toList, cmpTag)]).columns =
       ceilSqrt ([("sh010_CMP.v001.0001.png".toList, cmpTag)] :
         List (FileName × FileName)).length ∧
     (nukeContactSheetNode [("sh010_CMP.v001.0001.png".toList, cmpTag)]).inputs =
       ([("sh010_CMP.v001.0001.png".toList, cmpTag)] :
         List (FileName × FileName)).length ∧
     (nukeContactSheetNode [("sh010_CMP.v001.0001.png".toList, cmpTag)]).xpos =
       ((([("sh010_CMP.v001.0001.png".toList, cmpTag)] :
          List (FileName × FileName)).length - 1) * 180) / 2 ∧
     (nukeContactSheetNode [("sh010_CMP.v001.0001.png".toList, cmpTag)]).ypos =
       420) :=
  ⟨by decide,
   nuke_export_layout [("sh010_CMP.v001.0001.png".toList, cmpTag)] (by decide)⟩
